import Mathlib

/-!
# Fixed-point CNN forward inference (`cnn_common.h`, `main_skeleton.c`)

Shallow embedding of the PS-side integer kernels and of the fixed forward
pipeline.

Conventions of the embedding

* A C buffer is a `List Int`; a pointer plus offset is a flat index into it.
  Every read goes through `load` and every write through `store`, both of
  which fail (`none`) on an index outside the buffer.
* `int32_t` arithmetic is two's-complement: results are reduced by `wrap32`.
  `uint8_t` stores reduce by `toU8`.
* Loop counters and dimensions (`int Cin, H, W, ...`) are natural numbers; a C
  loop `for (i = lo; i < hi; ++i)` is a monadic left fold over
  `List.range' lo (hi - lo)`. Index expressions are computed without
  wrap-around: an index that addresses a buffer fits in `int`.
* The `static` work buffers of `run_forward_uint8` are explicit state
  (`Scratch`), passed in and returned.
-/

namespace CNN

/-! ## Machine integers -/

/-- Two's-complement reduction of an integer to the `int32_t` range. -/
def wrap32 (z : Int) : Int := (z + 2147483648) % 4294967296 - 2147483648

/-- Conversion to `uint8_t`: reduction modulo 256. -/
def toU8 (z : Int) : Int := z % 256

/-- Membership in the `int32_t` range. -/
def InI32 (z : Int) : Prop := -2147483648 ≤ z ∧ z ≤ 2147483647

/-- Membership in the `uint8_t` range. -/
def InU8 (z : Int) : Prop := 0 ≤ z ∧ z ≤ 255

/-- Membership in the `int8_t` range. -/
def InI8 (z : Int) : Prop := -128 ≤ z ∧ z ≤ 127

instance (z : Int) : Decidable (InI32 z) := by unfold InI32; infer_instance
instance (z : Int) : Decidable (InU8 z) := by unfold InU8; infer_instance
instance (z : Int) : Decidable (InI8 z) := by unfold InI8; infer_instance

/-- Every element of the buffer is a `uint8_t` value. -/
def AllU8 (b : List Int) : Prop := ∀ z ∈ b, InU8 z

/-- Every element of the buffer is an `int8_t` value. -/
def AllI8 (b : List Int) : Prop := ∀ z ∈ b, InI8 z

/-- Every element of the buffer is an `int32_t` value. -/
def AllI32 (b : List Int) : Prop := ∀ z ∈ b, InI32 z

instance (b : List Int) : Decidable (AllU8 b) := by unfold AllU8; infer_instance
instance (b : List Int) : Decidable (AllI8 b) := by unfold AllI8; infer_instance
instance (b : List Int) : Decidable (AllI32 b) := by unfold AllI32; infer_instance

/-! ## Buffers -/

/-- Bounds-checked read `b[i]`. -/
def load (b : List Int) (i : Nat) : Option Int := b[i]?

/-- Bounds-checked write `b[i] = v`. -/
def store (b : List Int) (i : Nat) (v : Int) : Option (List Int) :=
  if i < b.length then some (b.set i v) else none

/-- The C loop `for (i = lo; i < hi; ++i) body`, threading the state `s`. -/
def forFrom {σ : Type} (lo hi : Nat) (s : σ) (body : σ → Nat → Option σ) : Option σ :=
  (List.range' lo (hi - lo)).foldlM body s

/-- The C loop `for (i = 0; i < n; ++i) body`, threading the state `s`. -/
def forLoop {σ : Type} (n : Nat) (s : σ) (body : σ → Nat → Option σ) : Option σ :=
  forFrom 0 n s body

/-! ## Network shape (the anonymous `enum` of `cnn_common.h`) -/

def IN_C : Nat := 1
def IN_H : Nat := 28
def IN_W : Nat := 28
def KH : Nat := 5
def KW : Nat := 5
def C1_OUT : Nat := 4
def C1_H : Nat := 24
def C1_W : Nat := 24
def P1_H : Nat := 12
def P1_W : Nat := 12
def C2_OUT : Nat := 12
def C2_H : Nat := 8
def C2_W : Nat := 8
def P2_H : Nat := 4
def P2_W : Nat := 4
def FC_IN : Nat := 12 * 4 * 4
def FC_OUT : Nat := 10
def IMG_SIZE : Nat := IN_C * IN_H * IN_W
def N_TEST : Nat := 1000

/-! ## PS-side kernels -/

/-- Accumulation for one output position of `conv5x5_nchw_u8_i8`: the three
inner loops over `ci`, `kh`, `kw`, starting from `acc = 0`. -/
def conv5x5_acc (inp : List Int) (Cin H W : Nat) (w : List Int)
    (co oh ow : Nat) : Option Int :=
  forLoop Cin (0 : Int) fun acc ci =>
    forLoop KH acc fun acc kh =>
      forLoop KW acc fun acc kw => do
        let x ← load inp (ci * H * W + ((oh + kh) * W + (ow + kw)))
        let c ← load w (co * (Cin * KH * KW) + ci * (KH * KW) + (kh * KW + kw))
        pure (wrap32 (acc + x * c))

/-- 5x5 convolution: `uint8` input times `int8` weight into `int32`
accumulators. `OH = H - KH + 1`; for `H < KH - 1` the C value is negative and
the loop is empty, as with a zero bound. -/
def conv5x5_nchw_u8_i8 (inp : List Int) (Cin H W : Nat) (w : List Int)
    (Cout : Nat) (out_acc : List Int) : Option (List Int) :=
  let OH := H + 1 - KH
  let OW := W + 1 - KW
  forLoop Cout out_acc fun out co =>
    forLoop OH out fun out oh =>
      forLoop OW out fun out ow => do
        let acc ← conv5x5_acc inp Cin H W w co oh ow
        store out ((co * OH + oh) * OW + ow) acc

/-- The value `quant_relu_uint8_downscale` stores for the accumulator `v`:
the body of its loop. `>>` on `int32_t` is the arithmetic shift. -/
def quant_relu_elem (v : Int) : Int :=
  if v ≤ 0 then 0
  else
    let q := wrap32 (v + 64) >>> (7 : Nat)
    let q := if q > 255 then 255 else q
    toU8 q

/-- ReLU + quantization (/128, round to nearest): `int32` to `uint8`. -/
def quant_relu_uint8_downscale (acc : List Int) (n : Nat) (out : List Int) :
    Option (List Int) :=
  forLoop n out fun out i => do
    let v ← load acc i
    store out i (quant_relu_elem v)

/-- Scan of one pooling window of `maxpool_nchw_valid_u8`: the two inner
loops over `kh`, `kw`, starting from `m = 0`. -/
def maxpool_window (inp : List Int) (H W k s c oh ow : Nat) : Option Int :=
  forLoop k (0 : Int) fun m kh =>
    forLoop k m fun m kw => do
      let v ← load inp (c * H * W + ((oh * s + kh) * W + (ow * s + kw)))
      pure (if v > m then v else m)

/-- Max-pooling (valid window) for `uint8` feature maps. -/
def maxpool_nchw_valid_u8 (inp : List Int) (C H W k s : Nat) (out : List Int)
    (OH OW : Nat) : Option (List Int) :=
  forLoop C out fun out c =>
    forLoop OH out fun out oh =>
      forLoop OW out fun out ow => do
        let m ← maxpool_window inp H W k s c oh ow
        store out (c * OH * OW + (oh * OW + ow)) m

/-- Accumulation of one output row of `fc_no_bias_u8_i8`: the inner loop
over `i`, starting from `acc = 0`. -/
def fc_row (w : List Int) (Cin : Nat) (x : List Int) (o : Nat) : Option Int :=
  forLoop Cin (0 : Int) fun acc i => do
    let a ← load w (o * Cin + i)
    let b ← load x i
    pure (wrap32 (acc + a * b))

/-- Fully-connected layer: `uint8` activation times `int8` weight into
`int32` outputs. -/
def fc_no_bias_u8_i8 (w : List Int) (Cout Cin : Nat) (x : List Int)
    (y_acc : List Int) : Option (List Int) :=
  forLoop Cout y_acc fun y o => do
    let acc ← fc_row w Cin x o
    store y o acc

/-- The call `memcpy(&dst[d], &src[s], n)` on byte buffers. -/
def memcpy (dst : List Int) (d : Nat) (src : List Int) (s n : Nat) :
    Option (List Int) :=
  forLoop n dst fun dst j => do
    let v ← load src (s + j)
    store dst (d + j) v

/-- The flatten block of `run_forward_uint8`: state is `(fc_in, dst)`. -/
def flatten (p2 fc_in : List Int) : Option (List Int) := do
  let r ← forLoop C2_OUT (fc_in, 0) fun st c => do
    let f ← memcpy st.1 st.2 p2 (c * (P2_H * P2_W)) (P2_H * P2_W)
    pure (f, st.2 + P2_H * P2_W)
  pure r.1

/-- The argmax block of `run_forward_uint8`: state is `(best, best_idx)`,
`best_idx` being a `uint8_t`. -/
def argmax (logits_acc : List Int) : Option Nat := do
  let b0 ← load logits_acc 0
  let r ← forFrom 1 FC_OUT (b0, 0) fun st i => do
    let v ← load logits_acc i
    pure (if v > st.1 then (v, i % 256) else st)
  pure r.2

/-- The eight `static` work buffers of `run_forward_uint8`. -/
structure Scratch where
  c1_acc : List Int
  c2_acc : List Int
  logits_acc : List Int
  c1_feat : List Int
  p1 : List Int
  c2_feat : List Int
  p2 : List Int
  fc_in : List Int
deriving DecidableEq, Repr

/-- The buffers have their declared sizes. -/
def Scratch.Sized (st : Scratch) : Prop :=
  st.c1_acc.length = C1_OUT * C1_H * C1_W ∧
  st.c2_acc.length = C2_OUT * C2_H * C2_W ∧
  st.logits_acc.length = FC_OUT ∧
  st.c1_feat.length = C1_OUT * C1_H * C1_W ∧
  st.p1.length = C1_OUT * P1_H * P1_W ∧
  st.c2_feat.length = C2_OUT * C2_H * C2_W ∧
  st.p2.length = C2_OUT * P2_H * P2_W ∧
  st.fc_in.length = FC_IN

/-- The work buffers at program start: `static` storage is zero-initialised. -/
def Scratch.zero : Scratch :=
  { c1_acc := List.replicate (C1_OUT * C1_H * C1_W) 0
    c2_acc := List.replicate (C2_OUT * C2_H * C2_W) 0
    logits_acc := List.replicate FC_OUT 0
    c1_feat := List.replicate (C1_OUT * C1_H * C1_W) 0
    p1 := List.replicate (C1_OUT * P1_H * P1_W) 0
    c2_feat := List.replicate (C2_OUT * C2_H * C2_W) 0
    p2 := List.replicate (C2_OUT * P2_H * P2_W) 0
    fc_in := List.replicate FC_IN 0 }

/-- Single-image inference on the PS side. The work buffers are explicit
state: the result is the prediction and the buffers as the call leaves
them. -/
def run_forward_uint8 (st : Scratch) (c1_w c2_w fc_w x_single : List Int) :
    Option (Nat × Scratch) := do
  let c1_acc ← conv5x5_nchw_u8_i8 x_single IN_C IN_H IN_W c1_w C1_OUT st.c1_acc
  let c1_feat ← quant_relu_uint8_downscale c1_acc (C1_OUT * C1_H * C1_W) st.c1_feat
  let p1 ← maxpool_nchw_valid_u8 c1_feat C1_OUT C1_H C1_W 2 2 st.p1 P1_H P1_W
  let c2_acc ← conv5x5_nchw_u8_i8 p1 C1_OUT P1_H P1_W c2_w C2_OUT st.c2_acc
  let c2_feat ← quant_relu_uint8_downscale c2_acc (C2_OUT * C2_H * C2_W) st.c2_feat
  let p2 ← maxpool_nchw_valid_u8 c2_feat C2_OUT C2_H C2_W 2 2 st.p2 P2_H P2_W
  let fc_in ← flatten p2 st.fc_in
  let logits_acc ← fc_no_bias_u8_i8 fc_w FC_OUT FC_IN fc_in st.logits_acc
  let best_idx ← argmax logits_acc
  pure (best_idx, { c1_acc := c1_acc, c2_acc := c2_acc, logits_acc := logits_acc,
                    c1_feat := c1_feat, p1 := p1, c2_feat := c2_feat, p2 := p2,
                    fc_in := fc_in })

/-- Wrapper for PS inference. -/
def ps_forward_one (st : Scratch) (x c1_w c2_w fc_w : List Int) :
    Option (Nat × Scratch) :=
  run_forward_uint8 st c1_w c2_w fc_w x

/-! ## Reference values and loop invariants -/

/-- The exact (unbounded integer) convolution sum for output position
`(co, oh, ow)`: stride 1, no padding, no bias. -/
def conv_sum (inp : List Int) (Cin H W : Nat) (w : List Int) (co oh ow : Nat) : Int :=
  ∑ ci ∈ Finset.range Cin, ∑ kh ∈ Finset.range 5, ∑ kw ∈ Finset.range 5,
    inp.getD (ci * H * W + (oh + kh) * W + (ow + kw)) 0 *
      w.getD (co * Cin * 25 + ci * 25 + kh * 5 + kw) 0

/-- The cell of the convolution output at flat index `j`: the wrapped sum
for the position that `j` encodes in the `Cout x OH x OW` layout. -/
def conv_cell (inp : List Int) (Cin H W : Nat) (w : List Int) (j : Nat) : Int :=
  wrap32 (conv_sum inp Cin H W w (j / (W + 1 - 5) / (H + 1 - 5))
    (j / (W + 1 - 5) % (H + 1 - 5)) (j % (W + 1 - 5)))

/-- The cell of the pooling output at flat index `j`: the result of the
window scan for the position that `j` encodes in the `C x OH x OW` layout. -/
def pool_cell (inp : List Int) (H W k s OH OW : Nat) (j : Nat) : Int :=
  (maxpool_window inp H W k s (j / OW / OH) (j / OW % OH) (j % OW)).getD 0

/-- The exact (unbounded integer) dot product of row `o` of the weight
matrix with the input vector. -/
def fc_sum (w : List Int) (Cin : Nat) (x : List Int) (o : Nat) : Int :=
  ∑ i ∈ Finset.range Cin, w.getD (o * Cin + i) 0 * x.getD i 0

/-- The cell of the fully-connected output at index `o`. -/
def fc_cell (w : List Int) (Cin : Nat) (x : List Int) (o : Nat) : Int :=
  wrap32 (fc_sum w Cin x o)

/-- Loop invariant of a kernel that fills its output front to back: `out` has
the size of `orig`, its first `n` cells hold `g`, the others are those of
`orig`. -/
def Filled (g : Nat → Int) (orig out : List Int) (n : Nat) : Prop :=
  out.length = orig.length ∧ (∀ j, j < n → out[j]? = some (g j)) ∧
    (∀ j, n ≤ j → out[j]? = orig[j]?)

/-- The contents of the eight work buffers when `run_forward_uint8` returns,
as tables of the cells the kernels write. -/
def forward_buffers (c1_w c2_w fc_w x : List Int) : Scratch :=
  let c1_acc := (List.range (C1_OUT * C1_H * C1_W)).map (conv_cell x IN_C IN_H IN_W c1_w)
  let c1_feat := (List.range (C1_OUT * C1_H * C1_W)).map
    (fun j => quant_relu_elem (c1_acc.getD j 0))
  let p1 := (List.range (C1_OUT * P1_H * P1_W)).map (pool_cell c1_feat C1_H C1_W 2 2 P1_H P1_W)
  let c2_acc := (List.range (C2_OUT * C2_H * C2_W)).map (conv_cell p1 C1_OUT P1_H P1_W c2_w)
  let c2_feat := (List.range (C2_OUT * C2_H * C2_W)).map
    (fun j => quant_relu_elem (c2_acc.getD j 0))
  let p2 := (List.range (C2_OUT * P2_H * P2_W)).map (pool_cell c2_feat C2_H C2_W 2 2 P2_H P2_W)
  let fc_in := (List.range FC_IN).map (fun j => p2.getD j 0)
  let logits_acc := (List.range FC_OUT).map (fc_cell fc_w FC_IN fc_in)
  { c1_acc := c1_acc, c2_acc := c2_acc, logits_acc := logits_acc, c1_feat := c1_feat,
    p1 := p1, c2_feat := c2_feat, p2 := p2, fc_in := fc_in }

/-! ## The network in the words of the specification

Tensors are flat lists in channel-major, row-major order; arithmetic is
exact integer arithmetic. These definitions are compared with the code in
the refinement theorem of the pipeline. -/

/-- Valid (no padding) 5x5 convolution at stride 1, no bias: a
`Cout x OH x OW` tensor with `OH = H - KH + 1`, `OW = W - KW + 1`, each
entry the sum over input channels and kernel window of
`input[pixel] * weight[tap]`. -/
def conv_ref (inp : List Int) (Cin H W : Nat) (w : List Int) (Cout : Nat) : List Int :=
  (List.range (Cout * (H - KH + 1) * (W - KW + 1))).map fun j =>
    let co := j / (W - KW + 1) / (H - KH + 1)
    let oh := j / (W - KW + 1) % (H - KH + 1)
    let ow := j % (W - KW + 1)
    ∑ ci ∈ Finset.range Cin, ∑ kh ∈ Finset.range KH, ∑ kw ∈ Finset.range KW,
      inp.getD (ci * H * W + (oh + kh) * W + (ow + kw)) 0 *
        w.getD (co * Cin * (KH * KW) + ci * (KH * KW) + kh * KW + kw) 0

/-- ReLU and quantization, elementwise: values `≤ 0` map to 0, positive
values to `clamp(round(v / 128), 0, 255)` with halves rounded up. -/
def quant_ref (acc : List Int) : List Int :=
  acc.map fun v => if v ≤ 0 then 0 else min 255 ((v + 64) / 128)

/-- Max-pooling with a 2x2 window at stride 2 on a `C x H x W` tensor: a
`C x H/2 x W/2` tensor, entry `(c, oh, ow)` the maximum over the window
starting at `(2*oh, 2*ow)`. -/
def pool2_ref (inp : List Int) (C H W : Nat) : List Int :=
  (List.range (C * (H / 2) * (W / 2))).map fun j =>
    let c := j / (W / 2) / (H / 2)
    let oh := j / (W / 2) % (H / 2)
    let ow := j % (W / 2)
    max (max (inp.getD (c * H * W + (2 * oh) * W + 2 * ow) 0)
             (inp.getD (c * H * W + (2 * oh) * W + (2 * ow + 1)) 0))
        (max (inp.getD (c * H * W + (2 * oh + 1) * W + 2 * ow) 0)
             (inp.getD (c * H * W + (2 * oh + 1) * W + (2 * ow + 1)) 0))

/-- Flatten: channel-major concatenation of the 12 pooled 4x4 maps, each
row-major, into a vector of length 192. -/
def flatten_ref (t : List Int) : List Int :=
  (List.range 12).flatMap fun c =>
    (List.range 4).flatMap fun r =>
      (List.range 4).map fun col => t.getD (c * 16 + r * 4 + col) 0

/-- Fully-connected projection, no bias, no activation:
`out[o] = Σ_i weight[o][i] * input[i]`. -/
def fc_ref (w : List Int) (Cout Cin : Nat) (x : List Int) : List Int :=
  (List.range Cout).map fun o => ∑ i ∈ Finset.range Cin, w.getD (o * Cin + i) 0 * x.getD i 0

/-- Argmax with first-occurrence tie-break: the index of the first entry
that is at least every entry. -/
def argmax_ref (L : List Int) : Nat :=
  L.findIdx fun v => decide (∀ u ∈ L, u ≤ v)

/-- The fixed network: conv1, quantize, pool1, conv2, quantize, pool2,
flatten, fully-connected, argmax. -/
def net_ref (x c1_w c2_w fc_w : List Int) : Nat :=
  argmax_ref (fc_ref fc_w 10 192 (flatten_ref (pool2_ref (quant_ref
    (conv_ref (pool2_ref (quant_ref (conv_ref x 1 28 28 c1_w 4)) 4 24 24) 4 12 12 c2_w 12))
    12 8 8)))

/-! ## Accumulation, tap by tap -/

/-- The innermost body of the accumulation of `conv5x5_nchw_u8_i8`: the
statement `acc += in_c[(oh+kh)*W + (ow+kw)] * wci[kh*KW + kw]`. -/
def conv5x5_tap (inp : List Int) (Cin H W : Nat) (w : List Int)
    (co oh ow ci kh : Nat) (acc : Int) (kw : Nat) : Option Int := do
  let x ← load inp (ci * H * W + ((oh + kh) * W + (ow + kw)))
  let c ← load w (co * (Cin * KH * KW) + ci * (KH * KW) + (kh * KW + kw))
  pure (wrap32 (acc + x * c))

/-- The value of `acc` in `conv5x5_nchw_u8_i8` when control reaches tap
`(ci, kh, kw)` of output position `(co, oh, ow)`: the channels before `ci`,
the rows before `kh` of channel `ci` and the taps before `kw` of row `kh`
have been accumulated. -/
def conv5x5_acc_upto (inp : List Int) (Cin H W : Nat) (w : List Int)
    (co oh ow ci kh kw : Nat) : Option Int := do
  let a ← forLoop ci (0 : Int) fun acc ci' =>
    forLoop KH acc fun acc kh' => forLoop KW acc (conv5x5_tap inp Cin H W w co oh ow ci' kh')
  let b ← forLoop kh a fun acc kh' =>
    forLoop KW acc (conv5x5_tap inp Cin H W w co oh ow ci kh')
  forLoop kw b (conv5x5_tap inp Cin H W w co oh ow ci kh)

/-- The value of `acc` in `fc_no_bias_u8_i8` when control reaches term `i` of
output row `o`. -/
def fc_row_upto (w : List Int) (Cin : Nat) (x : List Int) (o i : Nat) : Option Int :=
  forLoop i (0 : Int) fun acc i' => do
    let a ← load w (o * Cin + i')
    let b ← load x i'
    pure (wrap32 (acc + a * b))

/-- No add of the convolution overflows: at every tap of every output
position the accumulator and the product are available and their exact sum
is an `int32_t` value. -/
def ConvAddsFit (inp : List Int) (Cin H W : Nat) (w : List Int) (Cout : Nat) : Prop :=
  ∀ co oh ow ci kh kw, co < Cout → oh < H - KH + 1 → ow < W - KW + 1 →
    ci < Cin → kh < KH → kw < KW →
    ∃ acc a b, conv5x5_acc_upto inp Cin H W w co oh ow ci kh kw = some acc ∧
      load inp (ci * H * W + ((oh + kh) * W + (ow + kw))) = some a ∧
      load w (co * (Cin * KH * KW) + ci * (KH * KW) + (kh * KW + kw)) = some b ∧
      InI32 (a * b) ∧ InI32 (acc + a * b)

/-- No add of the fully-connected layer overflows. -/
def FcAddsFit (w : List Int) (Cout Cin : Nat) (x : List Int) : Prop :=
  ∀ o i, o < Cout → i < Cin →
    ∃ acc a b, fc_row_upto w Cin x o i = some acc ∧
      load w (o * Cin + i) = some a ∧ load x i = some b ∧
      InI32 (a * b) ∧ InI32 (acc + a * b)

/-! ## Evaluation harness (`main`, case '1')

The embedded tables `test_1000_images_embedded`, `test_1000_labels_embedded`,
`conv1_w_embedded`, `conv2_w_embedded`, `fc1_w_embedded` are parameters. Timer
reads and console output are left out. -/

/-- The image `&test_1000_images_embedded[i * IMG_SIZE]` as the callee reads
it: the `IMG_SIZE` bytes from that address on. -/
def image_at (images : List Int) (i : Nat) : List Int :=
  (images.drop (i * IMG_SIZE)).take IMG_SIZE

/-- The PS loop of `main`: state is `(correct_ps, work buffers)`. -/
def ps_loop (images labels c1_w c2_w fc_w : List Int) (st : Scratch) :
    Option (Nat × Scratch) :=
  forLoop N_TEST (0, st) fun s i => do
    let x := image_at images i
    let label ← load labels i
    let r ← ps_forward_one s.2 x c1_w c2_w fc_w
    pure (if (r.1 : Int) = label then (s.1 + 1, r.2) else (s.1, r.2))

/-- The PL loop of `main` as shipped: the invocation is a placeholder and
`pred` is fixed to 0. The pointer `x` is formed and never read. -/
def pl_loop (images labels : List Int) : Option Nat :=
  forLoop N_TEST 0 fun correct_pl i => do
    let _x := image_at images i
    let label ← load labels i
    let pred : Int := 0
    pure (if pred = label then correct_pl + 1 else correct_pl)

/-- Case '1' of `main`: the PS loop, then the PL loop; the result is
`(correct_ps, correct_pl)` and the work buffers. -/
def run_test (images labels c1_w c2_w fc_w : List Int) (st : Scratch) :
    Option (Nat × Nat × Scratch) := do
  let ps ← ps_loop images labels c1_w c2_w fc_w st
  let correct_pl ← pl_loop images labels
  pure (ps.1, correct_pl, ps.2)

/-- The accuracy fraction of the summary line `PS  Acc = %d/%d`: numerator
and denominator as printed. -/
def summary_ps_acc (correct_ps : Nat) : Nat × Nat := (correct_ps, N_TEST)

/-- The prediction for test item `i`: `ps_forward_one` on the `i`-th image
and the three weight tables. -/
def ps_predict (images c1_w c2_w fc_w : List Int) (i : Nat) : Option Nat :=
  (ps_forward_one Scratch.zero (image_at images i) c1_w c2_w fc_w).map Prod.fst

/-- Test item `i` is classified correctly. -/
def ps_hit (images labels c1_w c2_w fc_w : List Int) (i : Nat) : Bool :=
  decide ((ps_predict images c1_w c2_w fc_w i).map Int.ofNat = some (labels.getD i 0))

/-! ## Loops -/

theorem foldlM_range_inv {σ : Type} (P : Nat → σ → Prop) (body : σ → Nat → Option σ)
    (lo : Nat) (s0 : σ) (h0 : P lo s0) :
    ∀ n : Nat, (∀ i s, lo ≤ i → i < lo + n → P i s → ∃ s', body s i = some s' ∧ P (i + 1) s') →
      ∃ s', (List.range' lo n).foldlM body s0 = some s' ∧ P (lo + n) s' := by
  intro n
  induction n with
  | zero => intro _; exact ⟨s0, by simp, by simpa using h0⟩
  | succ n ih =>
    intro hstep
    obtain ⟨s1, hs1, hP1⟩ := ih (fun i s hlo hhi hP => hstep i s hlo (by omega) hP)
    obtain ⟨s2, hs2, hP2⟩ := hstep (lo + n) s1 (by omega) (by omega) hP1
    refine ⟨s2, ?_, by simpa [Nat.add_assoc] using hP2⟩
    rw [List.range'_concat, List.foldlM_append, hs1]
    simp [hs2]

/-- Invariant rule for `for (i = lo; i < hi; ++i)`: the loop terminates
normally and establishes `P hi`. -/
theorem forFrom_inv {σ : Type} (P : Nat → σ → Prop) (body : σ → Nat → Option σ)
    (lo hi : Nat) (hle : lo ≤ hi) (s0 : σ) (h0 : P lo s0)
    (hstep : ∀ i s, lo ≤ i → i < hi → P i s → ∃ s', body s i = some s' ∧ P (i + 1) s') :
    ∃ s', forFrom lo hi s0 body = some s' ∧ P hi s' := by
  have h := foldlM_range_inv P body lo s0 h0 (hi - lo)
    (fun i s hlo hhi hP => hstep i s hlo (by omega) hP)
  have e : lo + (hi - lo) = hi := by omega
  rw [e] at h
  exact h

/-- Invariant rule for `for (i = 0; i < n; ++i)`. -/
theorem forLoop_inv {σ : Type} (P : Nat → σ → Prop) (body : σ → Nat → Option σ)
    (n : Nat) (s0 : σ) (h0 : P 0 s0)
    (hstep : ∀ i s, i < n → P i s → ∃ s', body s i = some s' ∧ P (i + 1) s') :
    ∃ s', forLoop n s0 body = some s' ∧ P n s' :=
  forFrom_inv P body 0 n (Nat.zero_le n) s0 h0 (fun i s _ hi hP => hstep i s hi hP)

/-! ## Machine arithmetic -/

theorem wrap32_add_left (a b : Int) : wrap32 (wrap32 a + b) = wrap32 (a + b) := by
  unfold wrap32
  omega

theorem wrap32_of_inI32 (z : Int) (h : InI32 z) : wrap32 z = z := by
  unfold wrap32; unfold InI32 at h
  omega

theorem wrap32_inI32 (z : Int) : InI32 (wrap32 z) := by
  unfold wrap32 InI32
  omega

/-! ## Flat indices -/

theorem idx2_lt {a b A B : Nat} (ha : a < A) (hb : b < B) : a * B + b < A * B := by
  have h : (a + 1) * B ≤ A * B := Nat.mul_le_mul_right B ha
  have e : (a + 1) * B = a * B + B := by ring
  omega

theorem idx2_mod {a b B : Nat} (hb : b < B) : (a * B + b) % B = b := by
  rw [Nat.add_comm, Nat.add_mul_mod_self_right, Nat.mod_eq_of_lt hb]

theorem idx2_div {a b B : Nat} (hb : b < B) : (a * B + b) / B = a := by
  have hB : 0 < B := by omega
  rw [Nat.add_comm, Nat.add_mul_div_right _ _ hB, Nat.div_eq_of_lt hb, Nat.zero_add]

theorem load_eq_getD (b : List Int) (i : Nat) (h : i < b.length) :
    load b i = some (b.getD i 0) := by
  unfold load
  simp [List.getD, List.getElem?_eq_getElem h]

theorem store_filled (g : Nat → Int) (orig out : List Int) (n : Nat) (v : Int)
    (hF : Filled g orig out n) (hn : n < orig.length) (hv : v = g n) :
    ∃ out', store out n v = some out' ∧ Filled g orig out' (n + 1) := by
  obtain ⟨hlen, hlo, hhi⟩ := hF
  refine ⟨out.set n v, ?_, ?_, ?_, ?_⟩
  · unfold store; simp [hlen, hn]
  · simp [hlen]
  · intro j hj
    by_cases e : j = n
    · subst e; simp [List.getElem?_set, hlen, hn, hv]
    · rw [List.getElem?_set_ne (Ne.symm e)]
      exact hlo j (by omega)
  · intro j hj
    rw [List.getElem?_set_ne (by omega)]
    exact hhi j (by omega)


/-! ## Convolution -/

theorem conv_in_idx {Cin H W ci oh ow kh kw : Nat} (hci : ci < Cin) (hoh : oh + 5 ≤ H)
    (how : ow + 5 ≤ W) (hkh : kh < 5) (hkw : kw < 5) :
    ci * H * W + (oh + kh) * W + (ow + kw) < Cin * H * W := by
  have h1 : (oh + kh) * W + (ow + kw) < H * W := idx2_lt (by omega) (by omega)
  have h2 : ci * (H * W) + ((oh + kh) * W + (ow + kw)) < Cin * (H * W) := idx2_lt hci h1
  have e1 : ci * H * W = ci * (H * W) := Nat.mul_assoc _ _ _
  have e2 : Cin * H * W = Cin * (H * W) := Nat.mul_assoc _ _ _
  omega

theorem conv_w_idx {Cin Cout co ci kh kw : Nat} (hco : co < Cout) (hci : ci < Cin)
    (hkh : kh < 5) (hkw : kw < 5) :
    co * Cin * 25 + ci * 25 + kh * 5 + kw < Cout * Cin * 25 := by
  have h1 : ci * 25 + (kh * 5 + kw) < Cin * 25 := idx2_lt hci (by omega)
  have h2 : co * (Cin * 25) + (ci * 25 + (kh * 5 + kw)) < Cout * (Cin * 25) := idx2_lt hco h1
  have e1 : co * Cin * 25 = co * (Cin * 25) := Nat.mul_assoc _ _ _
  have e2 : Cout * Cin * 25 = Cout * (Cin * 25) := Nat.mul_assoc _ _ _
  omega

/-- The accumulation loops of the convolution terminate without a bounds
fault and leave the wrapped exact sum in `acc`. -/
theorem conv5x5_acc_eq (inp w : List Int) (Cin H W Cout co oh ow : Nat)
    (hin : inp.length = Cin * H * W) (hw : w.length = Cout * Cin * 25)
    (hco : co < Cout) (hoh : oh + 5 ≤ H) (how : ow + 5 ≤ W) :
    conv5x5_acc inp Cin H W w co oh ow = some (wrap32 (conv_sum inp Cin H W w co oh ow)) := by
  unfold conv5x5_acc
  obtain ⟨acc, hacc, hP⟩ := forLoop_inv
    (fun ci (acc : Int) => acc = wrap32 (∑ ci' ∈ Finset.range ci,
      ∑ kh ∈ Finset.range 5, ∑ kw ∈ Finset.range 5,
        inp.getD (ci' * H * W + (oh + kh) * W + (ow + kw)) 0 *
          w.getD (co * Cin * 25 + ci' * 25 + kh * 5 + kw) 0))
    (fun acc ci => forLoop KH acc fun acc kh => forLoop KW acc fun acc kw => do
        let x ← load inp (ci * H * W + ((oh + kh) * W + (ow + kw)))
        let c ← load w (co * (Cin * KH * KW) + ci * (KH * KW) + (kh * KW + kw))
        pure (wrap32 (acc + x * c)))
    Cin 0 (by simp [wrap32]) (by
      intro ci acc hci hacc
      obtain ⟨a, ha, hPa⟩ := forLoop_inv
        (fun kh (a : Int) => a = wrap32 ((∑ ci' ∈ Finset.range ci,
          ∑ kh ∈ Finset.range 5, ∑ kw ∈ Finset.range 5,
            inp.getD (ci' * H * W + (oh + kh) * W + (ow + kw)) 0 *
              w.getD (co * Cin * 25 + ci' * 25 + kh * 5 + kw) 0) +
          ∑ kh' ∈ Finset.range kh, ∑ kw ∈ Finset.range 5,
            inp.getD (ci * H * W + (oh + kh') * W + (ow + kw)) 0 *
              w.getD (co * Cin * 25 + ci * 25 + kh' * 5 + kw) 0))
        (fun acc kh => forLoop KW acc fun acc kw => do
          let x ← load inp (ci * H * W + ((oh + kh) * W + (ow + kw)))
          let c ← load w (co * (Cin * KH * KW) + ci * (KH * KW) + (kh * KW + kw))
          pure (wrap32 (acc + x * c)))
        KH acc (by simpa using hacc) (by
          intro kh a hkh ha
          have hkh5 : kh < 5 := hkh
          obtain ⟨b, hb, hPb⟩ := forLoop_inv
            (fun kw (b : Int) => b = wrap32 ((∑ ci' ∈ Finset.range ci,
              ∑ kh ∈ Finset.range 5, ∑ kw ∈ Finset.range 5,
                inp.getD (ci' * H * W + (oh + kh) * W + (ow + kw)) 0 *
                  w.getD (co * Cin * 25 + ci' * 25 + kh * 5 + kw) 0) +
              (∑ kh' ∈ Finset.range kh, ∑ kw ∈ Finset.range 5,
                inp.getD (ci * H * W + (oh + kh') * W + (ow + kw)) 0 *
                  w.getD (co * Cin * 25 + ci * 25 + kh' * 5 + kw) 0) +
              ∑ kw' ∈ Finset.range kw,
                inp.getD (ci * H * W + (oh + kh) * W + (ow + kw')) 0 *
                  w.getD (co * Cin * 25 + ci * 25 + kh * 5 + kw') 0))
            (fun acc kw => do
              let x ← load inp (ci * H * W + ((oh + kh) * W + (ow + kw)))
              let c ← load w (co * (Cin * KH * KW) + ci * (KH * KW) + (kh * KW + kw))
              pure (wrap32 (acc + x * c)))
            KW a (by simpa using ha) (by
              intro kw b hkw hb
              have hkw5 : kw < 5 := hkw
              have e1 : ci * H * W + ((oh + kh) * W + (ow + kw))
                  = ci * H * W + (oh + kh) * W + (ow + kw) := by omega
              have e2 : co * (Cin * KH * KW) + ci * (KH * KW) + (kh * KW + kw)
                  = co * Cin * 25 + ci * 25 + kh * 5 + kw := by
                simp only [KH, KW]; ring
              have l1 := load_eq_getD inp _ (hin ▸ conv_in_idx hci hoh how hkh5 hkw5)
              have l2 := load_eq_getD w _ (hw ▸ conv_w_idx hco hci hkh5 hkw5)
              refine ⟨wrap32 (b + inp.getD (ci * H * W + (oh + kh) * W + (ow + kw)) 0 *
                w.getD (co * Cin * 25 + ci * 25 + kh * 5 + kw) 0), ?_, ?_⟩
              · beta_reduce
                rw [e1, e2, l1, l2]
                rfl
              · beta_reduce
                rw [hb, wrap32_add_left, Finset.sum_range_succ]
                congr 1; ring)
          refine ⟨b, hb, ?_⟩
          beta_reduce at hPb ⊢
          rw [hPb, Finset.sum_range_succ]
          congr 1; simp only [KW]; ring)
      refine ⟨a, ha, ?_⟩
      beta_reduce at hPa ⊢
      rw [hPa, Finset.sum_range_succ]
      simp only [KH])
  rw [hacc, hP]
  rfl


/-- Invariant rule for `for (i = 0; i < n; ++i)` with a postcondition. -/
theorem forLoop_post {σ : Type} (P : Nat → σ → Prop) {Q : σ → Prop}
    {body : σ → Nat → Option σ} {n : Nat} {s0 : σ} (h0 : P 0 s0)
    (hstep : ∀ i s, i < n → P i s → ∃ s', body s i = some s' ∧ P (i + 1) s')
    (hQ : ∀ s, P n s → Q s) :
    ∃ s', forLoop n s0 body = some s' ∧ Q s' := by
  obtain ⟨s', h, hP⟩ := forLoop_inv P body n s0 h0 hstep
  exact ⟨s', h, hQ s' hP⟩

theorem Filled.refl (g : Nat → Int) (orig : List Int) : Filled g orig orig 0 :=
  ⟨rfl, fun _ h => absurd h (Nat.not_lt_zero _), fun _ _ => rfl⟩

theorem Filled.cast {g : Nat → Int} {orig out : List Int} {n m : Nat}
    (h : Filled g orig out n) (e : n = m) : Filled g orig out m := e ▸ h

/-- The convolution terminates without a bounds fault; it fills the first
`Cout*OH*OW` cells of `out_acc` front to back and leaves the others. -/
theorem conv5x5_fill (inp w out : List Int) (Cin H W Cout : Nat)
    (hin : inp.length = Cin * H * W) (hw : w.length = Cout * Cin * 25)
    (hout : Cout * (H + 1 - 5) * (W + 1 - 5) ≤ out.length) :
    ∃ out', conv5x5_nchw_u8_i8 inp Cin H W w Cout out = some out' ∧
      Filled (conv_cell inp Cin H W w) out out' (Cout * (H + 1 - 5) * (W + 1 - 5)) := by
  unfold conv5x5_nchw_u8_i8
  simp only [KH, KW]
  generalize hOH : H + 1 - 5 = OH at hout ⊢
  generalize hOW : W + 1 - 5 = OW at hout ⊢
  have hg : ∀ co oh ow, oh < OH → ow < OW →
      conv_cell inp Cin H W w ((co * OH + oh) * OW + ow)
        = wrap32 (conv_sum inp Cin H W w co oh ow) := by
    intro co oh ow hoh how
    unfold conv_cell
    rw [hOH, hOW, idx2_mod how, idx2_div how, idx2_mod hoh, idx2_div hoh]
  refine forLoop_post (fun co o => Filled (conv_cell inp Cin H W w) out o (co * OH * OW))
    ((Filled.refl _ _).cast (by simp)) ?_ (fun _ h => h)
  intro co o hco hF
  refine forLoop_post
    (fun oh o => Filled (conv_cell inp Cin H W w) out o ((co * OH + oh) * OW))
    (hF.cast (by ring)) ?_ (fun _ h => h.cast (by ring))
  intro oh o2 hoh hF2
  refine forLoop_post
    (fun ow o => Filled (conv_cell inp Cin H W w) out o ((co * OH + oh) * OW + ow))
    hF2 ?_ (fun _ h => h.cast (by ring))
  intro ow o4 how hF4
  rw [conv5x5_acc_eq inp w Cin H W Cout co oh ow hin hw hco (by omega) (by omega)]
  have hlt : (co * OH + oh) * OW + ow < Cout * OH * OW := by
    have := idx2_lt (idx2_lt hco hoh) how
    simpa using this
  exact store_filled _ out o4 _ _ hF4 (by omega) (hg co oh ow hoh how).symm


theorem Filled.get_lt {g : Nat → Int} {orig out : List Int} {n : Nat}
    (h : Filled g orig out n) {j : Nat} (hj : j < n) : out[j]? = some (g j) := h.2.1 j hj

/-- C1: for `Cin ≥ 1`, `H, W ≥ 5`, a `uint8` input of length `Cin*H*W` and an
`int8` weight tensor of length `Cout*Cin*25`, `conv5x5_nchw_u8_i8` returns
normally, writes exactly the first `Cout*OH*OW` cells of `out_acc`
(`OH = H-5+1`, `OW = W-5+1`; the size and all later cells are kept), and
the cell at `(co*OH+oh)*OW+ow` is the wrapped exact sum over `ci < Cin`,
`kh < 5`, `kw < 5` of `in[ci*H*W+(oh+kh)*W+(ow+kw)] * w[co*Cin*25+ci*25+kh*5+kw]`,
hence the exact sum itself whenever that sum fits in `int32_t`. -/
theorem conv5x5_nchw_u8_i8_exact (Cin Cout H W : Nat) (inp w out : List Int)
    (_hCin : 1 ≤ Cin) (hH : 5 ≤ H) (hW : 5 ≤ W)
    (hin : inp.length = Cin * H * W) (_hinU8 : AllU8 inp)
    (hw : w.length = Cout * Cin * 25) (_hwI8 : AllI8 w)
    (hout : Cout * (H - 5 + 1) * (W - 5 + 1) ≤ out.length) :
    ∃ out', conv5x5_nchw_u8_i8 inp Cin H W w Cout out = some out' ∧
      out'.length = out.length ∧
      (∀ j, Cout * (H - 5 + 1) * (W - 5 + 1) ≤ j → out'[j]? = out[j]?) ∧
      ∀ co oh ow, co < Cout → oh < H - 5 + 1 → ow < W - 5 + 1 →
        out'[(co * (H - 5 + 1) + oh) * (W - 5 + 1) + ow]?
            = some (wrap32 (conv_sum inp Cin H W w co oh ow)) ∧
        (InI32 (conv_sum inp Cin H W w co oh ow) →
          out'[(co * (H - 5 + 1) + oh) * (W - 5 + 1) + ow]?
            = some (conv_sum inp Cin H W w co oh ow)) := by
  have eH : H - 5 + 1 = H + 1 - 5 := by omega
  have eW : W - 5 + 1 = W + 1 - 5 := by omega
  rw [eH, eW] at hout ⊢
  obtain ⟨out', hrun, hF⟩ := conv5x5_fill inp w out Cin H W Cout hin hw hout
  refine ⟨out', hrun, hF.1, hF.2.2, ?_⟩
  intro co oh ow hco hoh how
  have hlt : (co * (H + 1 - 5) + oh) * (W + 1 - 5) + ow
      < Cout * (H + 1 - 5) * (W + 1 - 5) := idx2_lt (idx2_lt hco hoh) how
  have hcell : conv_cell inp Cin H W w ((co * (H + 1 - 5) + oh) * (W + 1 - 5) + ow)
      = wrap32 (conv_sum inp Cin H W w co oh ow) := by
    unfold conv_cell
    rw [idx2_mod how, idx2_div how, idx2_mod hoh, idx2_div hoh]
  have hget := hF.get_lt hlt
  rw [hcell] at hget
  refine ⟨hget, fun hfit => ?_⟩
  rw [hget, wrap32_of_inI32 _ hfit]

/-- Instance of C1: a 5x5 single-channel image of 2s against a kernel of 3s. -/
theorem conv5x5_nchw_u8_i8_exact_witness :
    ∃ out', conv5x5_nchw_u8_i8 (List.replicate 25 2) 1 5 5 (List.replicate 25 3) 1 [7, 9]
        = some out' ∧
      out'.length = [(7 : Int), 9].length ∧
      (∀ j, 1 * (5 - 5 + 1) * (5 - 5 + 1) ≤ j → out'[j]? = [(7 : Int), 9][j]?) ∧
      ∀ co oh ow, co < 1 → oh < 5 - 5 + 1 → ow < 5 - 5 + 1 →
        out'[(co * (5 - 5 + 1) + oh) * (5 - 5 + 1) + ow]?
            = some (wrap32 (conv_sum (List.replicate 25 2) 1 5 5 (List.replicate 25 3) co oh ow)) ∧
        (InI32 (conv_sum (List.replicate 25 2) 1 5 5 (List.replicate 25 3) co oh ow) →
          out'[(co * (5 - 5 + 1) + oh) * (5 - 5 + 1) + ow]?
            = some (conv_sum (List.replicate 25 2) 1 5 5 (List.replicate 25 3) co oh ow)) :=
  conv5x5_nchw_u8_i8_exact 1 1 5 5 (List.replicate 25 2) (List.replicate 25 3) [7, 9]
    (by decide) (by decide) (by decide) (by decide) (by decide) (by decide) (by decide)
    (by decide)


/-! ## ReLU and quantization -/

theorem shiftRight7 (z : Int) : z >>> (7 : Nat) = z / 128 := by
  rw [Int.shiftRight_eq_div_pow]
  norm_num

/-- Where `v + 64` does not overflow, the stored element is the rounded and
saturated quotient. -/
theorem quant_relu_elem_pos (v : Int) (hpos : 0 < v) (hmax : v ≤ 2147483583) :
    quant_relu_elem v = min 255 ((v + 64) / 128) := by
  unfold quant_relu_elem
  simp only [shiftRight7, wrap32, toU8]
  rw [if_neg (by omega)]
  have e : (v + 64 + 2147483648) % 4294967296 - 2147483648 = v + 64 := by omega
  rw [e]
  by_cases h : (v + 64) / 128 > 255
  · rw [if_pos h]; omega
  · rw [if_neg h]; omega

theorem quant_relu_elem_nonpos (v : Int) (h : v ≤ 0) : quant_relu_elem v = 0 := by
  unfold quant_relu_elem
  rw [if_pos h]

/-- The stored element is always a `uint8_t` value. -/
theorem quant_relu_elem_inU8 (v : Int) : InU8 (quant_relu_elem v) := by
  unfold quant_relu_elem InU8
  by_cases h : v ≤ 0
  · rw [if_pos h]; omega
  · rw [if_neg h]
    simp only [toU8]
    omega

/-- C2 at its failing input: for `v = INT32_MAX` the add `v + 64` leaves the
`int32_t` range, the shifted value is negative, the clamp does not fire and
the stored byte is 0, whereas `min(255, floor((v + 64) / 128))` is 255. -/
theorem quant_relu_elem_int32_max :
    InI32 2147483647 ∧ quant_relu_elem 2147483647 = 0 ∧
      min (255 : Int) ((2147483647 + 64) / 128) = 255 ∧
      quant_relu_uint8_downscale [2147483647] 1 [9] = some [0] := by
  decide

/-- C3 as stated fails: the accumulator 1 is positive and is stored as 0. -/
theorem quant_relu_elem_zero_iff_counterexample :
    ¬ (quant_relu_elem 1 = 0 ↔ (1 : Int) ≤ 0) := by
  decide

/-- C3 amended: for an `int32_t` accumulator `v` with `v ≤ 2^31 - 65` (so
that `v + 64` stays in range), the stored element is 0 if and only if
`v ≤ 63`; every `v ≤ 0` is stored as 0 and so is every positive `v` below
64, which rounds down. -/
theorem quant_relu_elem_zero_iff (v : Int) (_hv : InI32 v) (hmax : v ≤ 2147483583) :
    quant_relu_elem v = 0 ↔ v ≤ 63 := by
  by_cases h : v ≤ 0
  · rw [quant_relu_elem_nonpos v h]
    constructor
    · intro _; omega
    · intro _; rfl
  · rw [quant_relu_elem_pos v (by omega) hmax]
    constructor
    · intro h0
      by_contra hc
      have : 1 ≤ (v + 64) / 128 := by omega
      omega
    · intro h63
      have : (v + 64) / 128 = 0 := by omega
      rw [this]; rfl

/-- Instance of amended C3 at `v = 64`, the least accumulator stored as 1. -/
theorem quant_relu_elem_zero_iff_witness :
    InI32 64 ∧ (quant_relu_elem 64 = 0 ↔ (64 : Int) ≤ 63) :=
  ⟨by decide, quant_relu_elem_zero_iff 64 (by decide) (by decide)⟩


/-! ## Max-pooling -/

theorem pool_in_idx {C H W c h x : Nat} (hc : c < C) (hh : h < H) (hx : x < W) :
    c * H * W + (h * W + x) < C * H * W := by
  have h1 : h * W + x < H * W := idx2_lt hh hx
  have h2 : c * (H * W) + (h * W + x) < C * (H * W) := idx2_lt hc h1
  have e1 : c * H * W = c * (H * W) := Nat.mul_assoc _ _ _
  have e2 : C * H * W = C * (H * W) := Nat.mul_assoc _ _ _
  omega

/-- The window scan terminates without a bounds fault; its result bounds
every element of the window from above and is 0 or one of them. -/
theorem maxpool_window_spec (inp : List Int) (C H W k s c oh ow : Nat)
    (hin : inp.length = C * H * W) (hc : c < C)
    (hh : oh * s + k ≤ H) (hx : ow * s + k ≤ W) :
    ∃ m, maxpool_window inp H W k s c oh ow = some m ∧
      (∀ kh kw, kh < k → kw < k →
        inp.getD (c * H * W + ((oh * s + kh) * W + (ow * s + kw))) 0 ≤ m) ∧
      (m = 0 ∨ ∃ kh kw, kh < k ∧ kw < k ∧
        m = inp.getD (c * H * W + ((oh * s + kh) * W + (ow * s + kw))) 0) := by
  unfold maxpool_window
  refine forLoop_post
    (fun kh (m : Int) =>
      (∀ kh' kw, kh' < kh → kw < k →
        inp.getD (c * H * W + ((oh * s + kh') * W + (ow * s + kw))) 0 ≤ m) ∧
      (m = 0 ∨ ∃ kh' kw, kh' < kh ∧ kw < k ∧
        m = inp.getD (c * H * W + ((oh * s + kh') * W + (ow * s + kw))) 0))
    ⟨fun _ _ h => absurd h (Nat.not_lt_zero _), Or.inl rfl⟩ ?_ (fun _ h => h)
  intro kh m hkh ⟨hub, hatt⟩
  refine forLoop_post
    (fun kw (m : Int) =>
      (∀ kh' kw', (kh' < kh ∧ kw' < k) ∨ (kh' = kh ∧ kw' < kw) →
        inp.getD (c * H * W + ((oh * s + kh') * W + (ow * s + kw'))) 0 ≤ m) ∧
      (m = 0 ∨ ∃ kh' kw', ((kh' < kh ∧ kw' < k) ∨ (kh' = kh ∧ kw' < kw)) ∧
        m = inp.getD (c * H * W + ((oh * s + kh') * W + (ow * s + kw'))) 0))
    ⟨?_, ?_⟩ ?_ ?_
  · rintro kh' kw' (⟨h1, h2⟩ | ⟨_, h2⟩)
    · exact hub kh' kw' h1 h2
    · exact absurd h2 (Nat.not_lt_zero _)
  · rcases hatt with h0 | ⟨kh', kw', h1, h2, h3⟩
    · exact Or.inl h0
    · exact Or.inr ⟨kh', kw', Or.inl ⟨h1, h2⟩, h3⟩
  · intro kw m2 hkw ⟨hub2, hatt2⟩
    have l := load_eq_getD inp (c * H * W + ((oh * s + kh) * W + (ow * s + kw)))
      (hin ▸ pool_in_idx hc (by omega) (by omega))
    beta_reduce
    rw [l]
    refine ⟨_, rfl, ?_, ?_⟩
    · rintro kh' kw' (⟨h1, h2⟩ | ⟨h1, h2⟩)
      · have := hub2 kh' kw' (Or.inl ⟨h1, h2⟩)
        split <;> omega
      · subst h1
        by_cases e : kw' = kw
        · subst e; split <;> omega
        · have := hub2 kh' kw' (Or.inr ⟨rfl, by omega⟩)
          split <;> omega
    · by_cases hgt : inp.getD (c * H * W + ((oh * s + kh) * W + (ow * s + kw))) 0 > m2
      · rw [if_pos hgt]
        exact Or.inr ⟨kh, kw, Or.inr ⟨rfl, by omega⟩, rfl⟩
      · rw [if_neg hgt]
        rcases hatt2 with h0 | ⟨kh', kw', h1, h3⟩
        · exact Or.inl h0
        · refine Or.inr ⟨kh', kw', ?_, h3⟩
          rcases h1 with h1 | ⟨h1, h2⟩
          · exact Or.inl h1
          · exact Or.inr ⟨h1, by omega⟩
  · intro m2 ⟨hub2, hatt2⟩
    refine ⟨?_, ?_⟩
    · intro kh' kw' h1 h2
      by_cases e : kh' = kh
      · exact hub2 kh' kw' (Or.inr ⟨e, h2⟩)
      · exact hub2 kh' kw' (Or.inl ⟨by omega, h2⟩)
    · rcases hatt2 with h0 | ⟨kh', kw', h1, h3⟩
      · exact Or.inl h0
      · refine Or.inr ⟨kh', kw', ?_, ?_, h3⟩
        · rcases h1 with h1 | ⟨h1, _⟩ <;> omega
        · rcases h1 with h1 | ⟨_, h2⟩ <;> omega


/-- Max-pooling terminates without a bounds fault; it fills the first
`C*OH*OW` cells of `out` front to back and leaves the others. -/
theorem maxpool_fill (inp out : List Int) (C H W k s OH OW : Nat)
    (hin : inp.length = C * H * W)
    (hh : ∀ oh, oh < OH → oh * s + k ≤ H) (hx : ∀ ow, ow < OW → ow * s + k ≤ W)
    (hout : C * OH * OW ≤ out.length) :
    ∃ out', maxpool_nchw_valid_u8 inp C H W k s out OH OW = some out' ∧
      Filled (pool_cell inp H W k s OH OW) out out' (C * OH * OW) := by
  unfold maxpool_nchw_valid_u8
  refine forLoop_post (fun c o => Filled (pool_cell inp H W k s OH OW) out o (c * OH * OW))
    ((Filled.refl _ _).cast (by simp)) ?_ (fun _ h => h)
  intro c o hc hF
  refine forLoop_post
    (fun oh o => Filled (pool_cell inp H W k s OH OW) out o ((c * OH + oh) * OW))
    (hF.cast (by ring)) ?_ (fun _ h => h.cast (by ring))
  intro oh o2 hoh hF2
  refine forLoop_post
    (fun ow o => Filled (pool_cell inp H W k s OH OW) out o ((c * OH + oh) * OW + ow))
    hF2 ?_ (fun _ h => h.cast (by ring))
  intro ow o4 how hF4
  obtain ⟨m, hm, _⟩ := maxpool_window_spec inp C H W k s c oh ow hin hc (hh oh hoh) (hx ow how)
  have e : c * OH * OW + (oh * OW + ow) = (c * OH + oh) * OW + ow := by ring
  rw [hm, e]
  have hlt : (c * OH + oh) * OW + ow < C * OH * OW := idx2_lt (idx2_lt hc hoh) how
  refine store_filled _ out o4 _ _ hF4 (by omega) ?_
  unfold pool_cell
  rw [idx2_mod how, idx2_div how, idx2_mod hoh, idx2_div hoh, hm]
  rfl

theorem getD_inU8 (b : List Int) (hb : AllU8 b) (i : Nat) (hi : i < b.length) :
    InU8 (b.getD i 0) := by
  have e : b.getD i 0 = b[i] := by simp [List.getD, List.getElem?_eq_getElem hi]
  rw [e]
  exact hb _ (List.getElem_mem hi)

theorem window_fits {OH s k H oh : Nat} (h : ((OH : Int) - 1) * s + k ≤ H) (hoh : oh < OH) :
    oh * s + k ≤ H := by
  have h1 : (oh : Int) ≤ (OH : Int) - 1 := by omega
  have h2 : (oh : Int) * s ≤ ((OH : Int) - 1) * s :=
    mul_le_mul_of_nonneg_right h1 (Int.ofNat_nonneg s)
  have h3 : ((oh * s + k : Nat) : Int) ≤ H := by push_cast; linarith
  exact_mod_cast h3

/-- C4: for window size `k ≥ 1`, stride `s ≥ 1`, output size `OH x OW` with
`(OH-1)*s + k ≤ H`, `(OW-1)*s + k ≤ W` and a `uint8` input of length
`C*H*W`, `maxpool_nchw_valid_u8` returns normally and the value it writes at
`(c, oh, ow)` is at least every element
`in[c*H*W + (oh*s+kh)*W + (ow*s+kw)]`, `kh, kw < k`, of the window and is
equal to one of them: it is exactly the window maximum. -/
theorem maxpool_nchw_valid_u8_max (C H W k s OH OW : Nat) (inp out : List Int)
    (hk : 1 ≤ k) (_hs : 1 ≤ s)
    (hH : ((OH : Int) - 1) * s + k ≤ H) (hW : ((OW : Int) - 1) * s + k ≤ W)
    (hin : inp.length = C * H * W) (hU8 : AllU8 inp)
    (hout : C * OH * OW ≤ out.length) :
    ∃ out', maxpool_nchw_valid_u8 inp C H W k s out OH OW = some out' ∧
      ∀ c oh ow, c < C → oh < OH → ow < OW →
        ∃ m, out'[c * OH * OW + oh * OW + ow]? = some m ∧
          (∀ kh kw, kh < k → kw < k →
            inp.getD (c * H * W + (oh * s + kh) * W + (ow * s + kw)) 0 ≤ m) ∧
          (∃ kh kw, kh < k ∧ kw < k ∧
            m = inp.getD (c * H * W + (oh * s + kh) * W + (ow * s + kw)) 0) := by
  have hh : ∀ oh, oh < OH → oh * s + k ≤ H := fun oh h => window_fits hH h
  have hx : ∀ ow, ow < OW → ow * s + k ≤ W := fun ow h => window_fits hW h
  obtain ⟨out', hrun, hF⟩ := maxpool_fill inp out C H W k s OH OW hin hh hx hout
  refine ⟨out', hrun, ?_⟩
  intro c oh ow hc hoh how
  obtain ⟨m, hm, hub, hatt⟩ :=
    maxpool_window_spec inp C H W k s c oh ow hin hc (hh oh hoh) (hx ow how)
  have hlt : (c * OH + oh) * OW + ow < C * OH * OW := idx2_lt (idx2_lt hc hoh) how
  have hget := hF.get_lt hlt
  have hcell : pool_cell inp H W k s OH OW ((c * OH + oh) * OW + ow) = m := by
    unfold pool_cell
    rw [idx2_mod how, idx2_div how, idx2_mod hoh, idx2_div hoh, hm]
    rfl
  have e : c * OH * OW + oh * OW + ow = (c * OH + oh) * OW + ow := by ring
  have ei : ∀ kh kw, c * H * W + (oh * s + kh) * W + (ow * s + kw)
      = c * H * W + ((oh * s + kh) * W + (ow * s + kw)) := fun _ _ => by omega
  rw [e, hget, hcell]
  refine ⟨m, rfl, ?_, ?_⟩
  · intro kh kw hkh hkw
    rw [ei]
    exact hub kh kw hkh hkw
  · rcases hatt with h0 | ⟨kh, kw, hkh, hkw, hval⟩
    · refine ⟨0, 0, by omega, by omega, ?_⟩
      have h1 := hub 0 0 (by omega) (by omega)
      have h2 := getD_inU8 inp hU8 (c * H * W + ((oh * s + 0) * W + (ow * s + 0)))
        (hin ▸ pool_in_idx hc (by have := hh oh hoh; omega) (by have := hx ow how; omega))
      rw [ei]
      unfold InU8 at h2
      omega
    · exact ⟨kh, kw, hkh, hkw, by rw [ei]; exact hval⟩

/-- Instance of C4: one 4x4 channel pooled with a 2x2 window at stride 2. -/
theorem maxpool_nchw_valid_u8_max_witness :
    ∃ out', maxpool_nchw_valid_u8 [1, 2, 3, 4, 5, 6, 7, 8, 9, 10, 11, 12, 13, 14, 15, 16]
        1 4 4 2 2 [0, 0, 0, 0] 2 2 = some out' ∧
      ∀ c oh ow, c < 1 → oh < 2 → ow < 2 →
        ∃ m, out'[c * 2 * 2 + oh * 2 + ow]? = some m ∧
          (∀ kh kw, kh < 2 → kw < 2 →
            [(1 : Int), 2, 3, 4, 5, 6, 7, 8, 9, 10, 11, 12, 13, 14, 15, 16].getD
              (c * 4 * 4 + (oh * 2 + kh) * 4 + (ow * 2 + kw)) 0 ≤ m) ∧
          (∃ kh kw, kh < 2 ∧ kw < 2 ∧
            m = [(1 : Int), 2, 3, 4, 5, 6, 7, 8, 9, 10, 11, 12, 13, 14, 15, 16].getD
              (c * 4 * 4 + (oh * 2 + kh) * 4 + (ow * 2 + kw)) 0) :=
  maxpool_nchw_valid_u8_max 1 4 4 2 2 2 2
    [1, 2, 3, 4, 5, 6, 7, 8, 9, 10, 11, 12, 13, 14, 15, 16] [0, 0, 0, 0]
    (by decide) (by decide) (by decide) (by decide) (by decide) (by decide) (by decide)


/-! ## Fully-connected layer -/

/-- The accumulation loop of the fully-connected layer terminates without a
bounds fault and leaves the wrapped exact dot product in `acc`. -/
theorem fc_row_eq (w x : List Int) (Cout Cin o : Nat)
    (hw : w.length = Cout * Cin) (hx : x.length = Cin) (ho : o < Cout) :
    fc_row w Cin x o = some (wrap32 (fc_sum w Cin x o)) := by
  unfold fc_row
  obtain ⟨acc, hacc, hP⟩ := forLoop_inv
    (fun i (acc : Int) => acc = wrap32 (∑ i' ∈ Finset.range i,
      w.getD (o * Cin + i') 0 * x.getD i' 0))
    (fun acc i => do
      let a ← load w (o * Cin + i)
      let b ← load x i
      pure (wrap32 (acc + a * b)))
    Cin 0 (by simp [wrap32]) (by
      intro i acc hi hacc
      have l1 := load_eq_getD w (o * Cin + i) (hw ▸ idx2_lt ho hi)
      have l2 := load_eq_getD x i (hx ▸ hi)
      refine ⟨wrap32 (acc + w.getD (o * Cin + i) 0 * x.getD i 0), ?_, ?_⟩
      · beta_reduce
        rw [l1, l2]
        rfl
      · beta_reduce
        rw [hacc, wrap32_add_left, Finset.sum_range_succ])
  rw [hacc, hP]
  rfl

/-- The fully-connected layer terminates without a bounds fault; it fills
the first `Cout` cells of `y_acc` and leaves the others. -/
theorem fc_fill (w x y : List Int) (Cout Cin : Nat)
    (hw : w.length = Cout * Cin) (hx : x.length = Cin) (hy : Cout ≤ y.length) :
    ∃ y', fc_no_bias_u8_i8 w Cout Cin x y = some y' ∧
      Filled (fc_cell w Cin x) y y' Cout := by
  unfold fc_no_bias_u8_i8
  refine forLoop_post (fun o out => Filled (fc_cell w Cin x) y out o)
    (Filled.refl _ _) ?_ (fun _ h => h)
  intro o out ho hF
  rw [fc_row_eq w x Cout Cin o hw hx ho]
  exact store_filled _ y out _ _ hF (by omega) rfl

/-- C5: for an `int8` weight matrix of length `Cout*Cin` (row-major) and a
`uint8` input vector of length `Cin`, `fc_no_bias_u8_i8` returns normally
and writes for every `o < Cout` the wrapped exact sum over `i < Cin` of
`w[o*Cin + i] * x[i]`, hence the exact sum itself whenever it fits in
`int32_t`; no bias and no activation are applied. -/
theorem fc_no_bias_u8_i8_exact (Cout Cin : Nat) (w x y : List Int)
    (hw : w.length = Cout * Cin) (_hwI8 : AllI8 w)
    (hx : x.length = Cin) (_hxU8 : AllU8 x) (hy : Cout ≤ y.length) :
    ∃ y', fc_no_bias_u8_i8 w Cout Cin x y = some y' ∧
      y'.length = y.length ∧
      (∀ j, Cout ≤ j → y'[j]? = y[j]?) ∧
      ∀ o, o < Cout →
        y'[o]? = some (wrap32 (∑ i ∈ Finset.range Cin, w.getD (o * Cin + i) 0 * x.getD i 0)) ∧
        (InI32 (∑ i ∈ Finset.range Cin, w.getD (o * Cin + i) 0 * x.getD i 0) →
          y'[o]? = some (∑ i ∈ Finset.range Cin, w.getD (o * Cin + i) 0 * x.getD i 0)) := by
  obtain ⟨y', hrun, hF⟩ := fc_fill w x y Cout Cin hw hx hy
  refine ⟨y', hrun, hF.1, hF.2.2, ?_⟩
  intro o ho
  have hget : y'[o]? = some (wrap32 (fc_sum w Cin x o)) := hF.get_lt ho
  unfold fc_sum at hget
  refine ⟨hget, fun hfit => ?_⟩
  rw [hget, wrap32_of_inI32 _ hfit]

/-- Instance of C5: a 2x3 weight matrix against a vector of length 3. -/
theorem fc_no_bias_u8_i8_exact_witness :
    ∃ y', fc_no_bias_u8_i8 [1, -2, 3, 4, 5, -6] 2 3 [1, 1, 2] [0, 0] = some y' ∧
      y'.length = [(0 : Int), 0].length ∧
      (∀ j, 2 ≤ j → y'[j]? = [(0 : Int), 0][j]?) ∧
      ∀ o, o < 2 →
        y'[o]? = some (wrap32 (∑ i ∈ Finset.range 3,
          [(1 : Int), -2, 3, 4, 5, -6].getD (o * 3 + i) 0 * [(1 : Int), 1, 2].getD i 0)) ∧
        (InI32 (∑ i ∈ Finset.range 3,
            [(1 : Int), -2, 3, 4, 5, -6].getD (o * 3 + i) 0 * [(1 : Int), 1, 2].getD i 0) →
          y'[o]? = some (∑ i ∈ Finset.range 3,
            [(1 : Int), -2, 3, 4, 5, -6].getD (o * 3 + i) 0 * [(1 : Int), 1, 2].getD i 0)) :=
  fc_no_bias_u8_i8_exact 2 3 [1, -2, 3, 4, 5, -6] [1, 1, 2] [0, 0]
    (by decide) (by decide) (by decide) (by decide) (by decide)


/-! ## Argmax -/

/-- The argmax scan terminates without a bounds fault on 10 logits; the
index it returns holds a maximal logit and every earlier logit is strictly
smaller. -/
theorem argmax_spec (L : List Int) (hlen : L.length = 10) :
    ∃ i, argmax L = some i ∧ i < 10 ∧
      (∀ j, j < 10 → L.getD j 0 ≤ L.getD i 0) ∧
      (∀ j, j < i → L.getD j 0 < L.getD i 0) := by
  unfold argmax
  rw [load_eq_getD L 0 (by omega)]
  obtain ⟨r, hr, hP⟩ := forFrom_inv
    (fun i (st : Int × Nat) => st.2 < i ∧ st.1 = L.getD st.2 0 ∧
      (∀ j, j < i → L.getD j 0 ≤ st.1) ∧ (∀ j, j < st.2 → L.getD j 0 < st.1))
    (fun st i => do
      let v ← load L i
      pure (if v > st.1 then (v, i % 256) else st))
    1 FC_OUT (by decide) (L.getD 0 0, 0)
    ⟨by omega, rfl, fun j hj => by
        have : j = 0 := by omega
        subst this; exact le_refl _, fun j hj => absurd hj (Nat.not_lt_zero _)⟩
    (by
      intro i st _ hi ⟨h1, h2, h3, h4⟩
      have hi10 : i < 10 := hi
      beta_reduce
      rw [load_eq_getD L i (by omega)]
      refine ⟨_, rfl, ?_⟩
      by_cases hgt : L.getD i 0 > st.1
      · have e : i % 256 = i := by omega
        rw [if_pos hgt, e]
        refine ⟨Nat.lt_succ_self i, rfl, ?_, ?_⟩
        · intro j hj
          by_cases ej : j = i
          · subst ej; exact le_refl _
          · have := h3 j (by omega); omega
        · intro j hj
          have := h3 j hj; omega
      · rw [if_neg hgt]
        refine ⟨by omega, h2, ?_, h4⟩
        intro j hj
        by_cases ej : j = i
        · subst ej; omega
        · exact h3 j (by omega))
  obtain ⟨h1, h2, h3, h4⟩ := hP
  refine ⟨r.2, ?_, h1, ?_, ?_⟩
  · change ((forFrom 1 FC_OUT (L.getD 0 0, 0) _) >>= _) = _
    rw [hr]
    rfl
  · intro j hj; rw [← h2]; exact h3 j hj
  · intro j hj; rw [← h2]; exact h4 j hj

/-- C6: on a vector of 10 `int32_t` logits the argmax of `run_forward_uint8`
returns the least index `i` in `0..9` with `logits[i] ≥ logits[j]` for every
`j` in `0..9`; in particular for logits `[5, 5, 3, ...]` with all entries at
most 5 the result is 0. -/
theorem argmax_least_maximal (L : List Int) (hlen : L.length = 10) (_hI32 : AllI32 L) :
    ∃ i, argmax L = some i ∧ i < 10 ∧
      (∀ j, j < 10 → L.getD j 0 ≤ L.getD i 0) ∧
      (∀ i', i' < 10 → (∀ j, j < 10 → L.getD j 0 ≤ L.getD i' 0) → i ≤ i') ∧
      (L.getD 0 0 = 5 → L.getD 1 0 = 5 → L.getD 2 0 = 3 →
        (∀ j, j < 10 → L.getD j 0 ≤ 5) → i = 0) := by
  obtain ⟨i, hrun, hi, hmax, hbefore⟩ := argmax_spec L hlen
  refine ⟨i, hrun, hi, hmax, ?_, ?_⟩
  · intro i' _ hmax'
    by_contra hlt
    have h1 := hbefore i' (by omega)
    have h2 := hmax' i hi
    omega
  · intro h0 _ _ hle
    by_contra hne
    have h1 := hbefore 0 (by omega)
    have h2 := hle i hi
    omega

/-- Instance of C6: the tied logits `[5, 5, 3, ...]` select index 0. -/
theorem argmax_least_maximal_witness :
    ∃ i, argmax [5, 5, 3, 1, 0, -2, 4, 5, -7, 2] = some i ∧ i < 10 ∧
      (∀ j, j < 10 → [(5 : Int), 5, 3, 1, 0, -2, 4, 5, -7, 2].getD j 0
        ≤ [(5 : Int), 5, 3, 1, 0, -2, 4, 5, -7, 2].getD i 0) ∧
      (∀ i', i' < 10 → (∀ j, j < 10 → [(5 : Int), 5, 3, 1, 0, -2, 4, 5, -7, 2].getD j 0
        ≤ [(5 : Int), 5, 3, 1, 0, -2, 4, 5, -7, 2].getD i' 0) → i ≤ i') ∧
      ([(5 : Int), 5, 3, 1, 0, -2, 4, 5, -7, 2].getD 0 0 = 5 →
        [(5 : Int), 5, 3, 1, 0, -2, 4, 5, -7, 2].getD 1 0 = 5 →
        [(5 : Int), 5, 3, 1, 0, -2, 4, 5, -7, 2].getD 2 0 = 3 →
        (∀ j, j < 10 → [(5 : Int), 5, 3, 1, 0, -2, 4, 5, -7, 2].getD j 0 ≤ 5) → i = 0) :=
  argmax_least_maximal [5, 5, 3, 1, 0, -2, 4, 5, -7, 2] (by decide) (by decide)


/-! ## Completely filled buffers -/

/-- A buffer that has been filled over its whole length is the table of `g`. -/
theorem Filled.eq_map {g : Nat → Int} {orig out : List Int} {n : Nat}
    (h : Filled g orig out n) (hn : n = orig.length) : out = (List.range n).map g := by
  apply List.ext_getElem?
  intro j
  by_cases hj : j < n
  · rw [h.2.1 j hj, List.getElem?_map, List.getElem?_range hj]
    rfl
  · have h1 : out.length ≤ j := by rw [h.1]; omega
    rw [List.getElem?_eq_none h1, List.getElem?_eq_none (by simp; omega)]

theorem getD_map_range (g : Nat → Int) (n j : Nat) (hj : j < n) :
    ((List.range n).map g).getD j 0 = g j := by
  simp [List.getD, List.getElem?_map, List.getElem?_range hj]

/-! ## Quantization kernel -/

/-- The quantization kernel terminates without a bounds fault; it fills the
first `n` cells of `out` with the quantized accumulators. -/
theorem quant_fill (acc out : List Int) (n : Nat) (hacc : n ≤ acc.length)
    (hout : n ≤ out.length) :
    ∃ out', quant_relu_uint8_downscale acc n out = some out' ∧
      Filled (fun j => quant_relu_elem (acc.getD j 0)) out out' n := by
  unfold quant_relu_uint8_downscale
  refine forLoop_post (fun i o => Filled (fun j => quant_relu_elem (acc.getD j 0)) out o i)
    (Filled.refl _ _) ?_ (fun _ h => h)
  intro i o hi hF
  rw [load_eq_getD acc i (by omega)]
  exact store_filled _ out o _ _ hF (by omega) rfl

/-! ## Flatten -/

/-- The copy terminates without a bounds fault and extends a filled prefix
of the destination by `n` cells. -/
theorem memcpy_fill (g : Nat → Int) (orig dst src : List Int) (d s n : Nat)
    (hF : Filled g orig dst d) (hsrc : s + n ≤ src.length) (hdst : d + n ≤ orig.length)
    (hg : ∀ j, j < n → g (d + j) = src.getD (s + j) 0) :
    ∃ dst', memcpy dst d src s n = some dst' ∧ Filled g orig dst' (d + n) := by
  unfold memcpy
  refine forLoop_post (fun j o => Filled g orig o (d + j)) hF ?_ (fun _ h => h)
  intro j o hj hFj
  rw [load_eq_getD src (s + j) (by omega)]
  exact store_filled _ orig o _ _ hFj (by omega) (hg j hj).symm

/-- The flatten block terminates without a bounds fault and makes `fc_in` a
copy of the first 192 cells of `p2`. -/
theorem flatten_fill (p2 fc_in : List Int) (hp2 : 192 ≤ p2.length)
    (hfc : 192 ≤ fc_in.length) :
    ∃ f, flatten p2 fc_in = some f ∧ Filled (fun j => p2.getD j 0) fc_in f 192 := by
  unfold flatten
  obtain ⟨r, hr, hP⟩ := forLoop_inv
    (fun c (st : List Int × Nat) => st.2 = c * 16 ∧
      Filled (fun j => p2.getD j 0) fc_in st.1 (c * 16))
    (fun st c => do
      let f ← memcpy st.1 st.2 p2 (c * (P2_H * P2_W)) (P2_H * P2_W)
      pure (f, st.2 + P2_H * P2_W))
    C2_OUT (fc_in, 0) ⟨rfl, (Filled.refl _ _).cast (by simp)⟩ (by
      intro c st hc ⟨h2, hF⟩
      have hc12 : c < 12 := hc
      have e : P2_H * P2_W = 16 := rfl
      beta_reduce
      rw [e, h2]
      obtain ⟨f, hf, hFf⟩ := memcpy_fill (fun j => p2.getD j 0) fc_in st.1 p2 (c * 16)
        (c * 16) 16 hF (by omega) (by omega) (fun _ _ => rfl)
      rw [hf]
      exact ⟨(f, c * 16 + 16), rfl, by ring, hFf.cast (by ring)⟩)
  refine ⟨r.1, ?_, hP.2⟩
  rw [hr]
  rfl

/-- C8: for every content of the pooled buffer `p2` (12 channels of 4x4) the
flatten block of `run_forward_uint8` returns normally with
`fc_in[c*16 + r*4 + col]` equal to the `p2` value of channel `c` at row `r`,
column `col`, for `c < 12`, `r < 4`, `col < 4`; so maps that are constant
`v c` on channel `c` flatten to 16 copies of `v 0`, then 16 copies of `v 1`,
and so on up to `v 11`. -/
theorem flatten_channel_major (p2 fc_in : List Int) (hp2 : p2.length = C2_OUT * P2_H * P2_W)
    (_hU8 : AllU8 p2) (hfc : fc_in.length = FC_IN) :
    ∃ f, flatten p2 fc_in = some f ∧ f.length = 192 ∧
      (∀ c r col, c < 12 → r < 4 → col < 4 →
        f[c * 16 + r * 4 + col]? = some (p2.getD (c * (P2_H * P2_W) + r * P2_W + col) 0)) ∧
      (∀ v : Nat → Int,
        (∀ c r col, c < 12 → r < 4 → col < 4 →
          p2.getD (c * (P2_H * P2_W) + r * P2_W + col) 0 = v c) →
        f = (List.range 12).flatMap (fun c => List.replicate 16 (v c))) := by
  have hp : p2.length = 192 := hp2
  have hf : fc_in.length = 192 := hfc
  obtain ⟨f, hrun, hF⟩ := flatten_fill p2 fc_in (by omega) (by omega)
  refine ⟨f, hrun, by rw [hF.1, hf], ?_, ?_⟩
  · intro c r col hc hr hcol
    rw [hF.get_lt (by omega)]
    rfl
  · intro v hv
    rw [hF.eq_map hf.symm]
    have e : (List.range 12).flatMap (fun c => List.replicate 16 (v c))
        = (List.range 192).map (fun j => v (j / 16)) := by rfl
    rw [e]
    apply List.map_congr_left
    intro j hj
    have hj192 : j < 192 := List.mem_range.mp hj
    have h := hv (j / 16) (j % 16 / 4) (j % 4) (by omega) (by omega) (by omega)
    have ej : j / 16 * (P2_H * P2_W) + j % 16 / 4 * P2_W + j % 4 = j := by
      simp only [P2_H, P2_W]; omega
    rw [ej] at h
    exact h


/-- Instance of C8: a pooled buffer holding 7 everywhere. -/
theorem flatten_channel_major_witness :
    ∃ f, flatten (List.replicate 192 7) (List.replicate 192 0) = some f ∧ f.length = 192 ∧
      (∀ c r col, c < 12 → r < 4 → col < 4 →
        f[c * 16 + r * 4 + col]?
          = some ((List.replicate 192 (7 : Int)).getD (c * (P2_H * P2_W) + r * P2_W + col) 0)) ∧
      (∀ v : Nat → Int,
        (∀ c r col, c < 12 → r < 4 → col < 4 →
          (List.replicate 192 (7 : Int)).getD (c * (P2_H * P2_W) + r * P2_W + col) 0 = v c) →
        f = (List.range 12).flatMap (fun c => List.replicate 16 (v c))) :=
  flatten_channel_major (List.replicate 192 7) (List.replicate 192 0)
    (List.length_replicate 192 7) (fun z hz => by rw [List.eq_of_mem_replicate hz]; decide)
    (List.length_replicate 192 0)


/-! ## The forward pipeline -/

theorem bind_some_eq {α β : Type} (a : α) (f : α → Option β) : (some a >>= f) = f a := rfl

/-- On buffers of the declared sizes, an image of 784 bytes and weight
tensors of 100, 1200 and 1920 bytes, `run_forward_uint8` returns normally;
the buffers it leaves are `forward_buffers` and the prediction is the argmax
of the logits among them. -/
theorem run_forward_uint8_eq (st : Scratch) (c1_w c2_w fc_w x : List Int)
    (hst : st.Sized) (hx : x.length = 784) (h1 : c1_w.length = 100)
    (h2 : c2_w.length = 1200) (h3 : fc_w.length = 1920) :
    ∃ i, run_forward_uint8 st c1_w c2_w fc_w x = some (i, forward_buffers c1_w c2_w fc_w x) ∧
      argmax (forward_buffers c1_w c2_w fc_w x).logits_acc = some i ∧ i < 10 ∧
      (∀ j, j < 10 → (forward_buffers c1_w c2_w fc_w x).logits_acc.getD j 0
        ≤ (forward_buffers c1_w c2_w fc_w x).logits_acc.getD i 0) ∧
      (∀ j, j < i → (forward_buffers c1_w c2_w fc_w x).logits_acc.getD j 0
        < (forward_buffers c1_w c2_w fc_w x).logits_acc.getD i 0) := by
  obtain ⟨s1, s2, s3, s4, s5, s6, s7, s8⟩ := hst
  simp only [C1_OUT, C1_H, C1_W, C2_OUT, C2_H, C2_W, P1_H, P1_W, P2_H, P2_W, FC_IN, FC_OUT]
    at s1 s2 s3 s4 s5 s6 s7 s8
  -- conv1
  obtain ⟨a1, r1, F1⟩ := conv5x5_fill x c1_w st.c1_acc IN_C IN_H IN_W C1_OUT
    (by rw [hx]; rfl) (by rw [h1]; rfl) (by rw [s1]; decide)
  have e1 := F1.eq_map (n := C1_OUT * C1_H * C1_W) (by rw [s1]; rfl)
  obtain ⟨b1, q1, G1⟩ := quant_fill a1 st.c1_feat (C1_OUT * C1_H * C1_W)
    (by rw [F1.1, s1]; decide) (by rw [s4]; decide)
  have f1 := G1.eq_map (by rw [s4]; rfl)
  obtain ⟨p1, m1, M1⟩ := maxpool_fill b1 st.p1 C1_OUT C1_H C1_W 2 2 P1_H P1_W
    (by rw [G1.1, s4]; rfl)
    (fun oh h => by simp only [P1_H, C1_H] at h ⊢; omega)
    (fun ow h => by simp only [P1_W, C1_W] at h ⊢; omega) (by rw [s5]; decide)
  have g1 := M1.eq_map (by rw [s5]; rfl)
  -- conv2
  obtain ⟨a2, r2, F2⟩ := conv5x5_fill p1 c2_w st.c2_acc C1_OUT P1_H P1_W C2_OUT
    (by rw [M1.1, s5]; rfl) (by rw [h2]; rfl) (by rw [s2]; decide)
  have e2 := F2.eq_map (n := C2_OUT * C2_H * C2_W) (by rw [s2]; rfl)
  obtain ⟨b2, q2, G2⟩ := quant_fill a2 st.c2_feat (C2_OUT * C2_H * C2_W)
    (by rw [F2.1, s2]; decide) (by rw [s6]; decide)
  have f2 := G2.eq_map (by rw [s6]; rfl)
  obtain ⟨p2, m2, M2⟩ := maxpool_fill b2 st.p2 C2_OUT C2_H C2_W 2 2 P2_H P2_W
    (by rw [G2.1, s6]; rfl)
    (fun oh h => by simp only [P2_H, C2_H] at h ⊢; omega)
    (fun ow h => by simp only [P2_W, C2_W] at h ⊢; omega) (by rw [s7]; decide)
  have g2 := M2.eq_map (by rw [s7]; rfl)
  -- flatten, fc, argmax
  obtain ⟨fi, fl, FL⟩ := flatten_fill p2 st.fc_in (by rw [M2.1, s7])
    (by rw [s8])
  have efi := FL.eq_map (n := FC_IN) (by rw [s8]; rfl)
  obtain ⟨lg, fr, FC⟩ := fc_fill fc_w fi st.logits_acc FC_OUT FC_IN (by rw [h3]; rfl)
    (by rw [FL.1, s8]; rfl) (by rw [s3]; decide)
  have elg := FC.eq_map (by rw [s3]; rfl)
  obtain ⟨i, hi, hi10, hmax, hlt⟩ := argmax_spec lg (by rw [FC.1, s3])
  have hbuf : forward_buffers c1_w c2_w fc_w x =
      { c1_acc := a1, c2_acc := a2, logits_acc := lg, c1_feat := b1, p1 := p1,
        c2_feat := b2, p2 := p2, fc_in := fi } := by
    unfold forward_buffers
    simp only []
    rw [← e1, ← f1, ← g1, ← e2, ← f2, ← g2, ← efi, ← elg]
  refine ⟨i, ?_, ?_, hi10, ?_, ?_⟩
  · unfold run_forward_uint8
    rw [r1, bind_some_eq, q1, bind_some_eq, m1, bind_some_eq, r2, bind_some_eq, q2,
      bind_some_eq, m2, bind_some_eq, fl, bind_some_eq, fr, bind_some_eq, hi, bind_some_eq,
      hbuf]
    rfl
  · rw [hbuf]; exact hi
  · rw [hbuf]; exact hmax
  · rw [hbuf]; exact hlt


theorem Scratch.zero_sized : Scratch.zero.Sized := by
  unfold Scratch.Sized Scratch.zero
  simp

theorem forward_buffers_sized (c1_w c2_w fc_w x : List Int) :
    (forward_buffers c1_w c2_w fc_w x).Sized := by
  unfold Scratch.Sized forward_buffers
  simp

theorem allU8_replicate (n : Nat) (v : Int) (hv : InU8 v) : AllU8 (List.replicate n v) := by
  intro z hz
  rw [List.eq_of_mem_replicate hz]
  exact hv

theorem allI8_replicate (n : Nat) (v : Int) (hv : InI8 v) : AllI8 (List.replicate n v) := by
  intro z hz
  rw [List.eq_of_mem_replicate hz]
  exact hv

/-- C9: for every 28x28 `uint8` image and every choice of the three `int8`
weight tensors of the fixed shapes, `ps_forward_one` returns normally and the
class index it returns lies in `[0, 9]`. -/
theorem ps_forward_one_class_range (st : Scratch) (x c1_w c2_w fc_w : List Int)
    (hst : st.Sized) (hx : x.length = IMG_SIZE) (_hxU8 : AllU8 x)
    (h1 : c1_w.length = C1_OUT * IN_C * KH * KW) (_h1I8 : AllI8 c1_w)
    (h2 : c2_w.length = C2_OUT * C1_OUT * KH * KW) (_h2I8 : AllI8 c2_w)
    (h3 : fc_w.length = FC_OUT * FC_IN) (_h3I8 : AllI8 fc_w) :
    ∃ i st', ps_forward_one st x c1_w c2_w fc_w = some (i, st') ∧ 0 ≤ i ∧ i ≤ 9 := by
  obtain ⟨i, hrun, _, hi, _⟩ := run_forward_uint8_eq st c1_w c2_w fc_w x hst hx h1 h2 h3
  exact ⟨i, _, hrun, Nat.zero_le i, by omega⟩

/-- Instance of C9: a uniform grey image against constant weights, from the
zero-initialised work buffers. -/
theorem ps_forward_one_class_range_witness :
    ∃ i st', ps_forward_one Scratch.zero (List.replicate 784 200) (List.replicate 100 3)
        (List.replicate 1200 (-2)) (List.replicate 1920 5) = some (i, st') ∧ 0 ≤ i ∧ i ≤ 9 :=
  ps_forward_one_class_range Scratch.zero (List.replicate 784 200) (List.replicate 100 3)
    (List.replicate 1200 (-2)) (List.replicate 1920 5) Scratch.zero_sized
    (List.length_replicate 784 200) (allU8_replicate 784 200 (by decide))
    (List.length_replicate 100 3) (allI8_replicate 100 3 (by decide))
    (List.length_replicate 1200 (-2)) (allI8_replicate 1200 (-2) (by decide))
    (List.length_replicate 1920 5) (allI8_replicate 1920 5 (by decide))

/-- C10: with the eight static work buffers as explicit state, for every
image, weights and any two initial buffer states of the declared sizes
`run_forward_uint8` returns the same prediction and leaves the same contents
in all eight buffers; the buffers it leaves have the declared sizes again and
a second run from them on the same image and weights repeats both the
prediction and the buffers. -/
theorem run_forward_uint8_deterministic (st1 st2 : Scratch) (c1_w c2_w fc_w x : List Int)
    (hst1 : st1.Sized) (hst2 : st2.Sized) (hx : x.length = IMG_SIZE) (_hxU8 : AllU8 x)
    (h1 : c1_w.length = C1_OUT * IN_C * KH * KW) (_h1I8 : AllI8 c1_w)
    (h2 : c2_w.length = C2_OUT * C1_OUT * KH * KW) (_h2I8 : AllI8 c2_w)
    (h3 : fc_w.length = FC_OUT * FC_IN) (_h3I8 : AllI8 fc_w) :
    ∃ i st', run_forward_uint8 st1 c1_w c2_w fc_w x = some (i, st') ∧
      run_forward_uint8 st2 c1_w c2_w fc_w x = some (i, st') ∧
      st'.Sized ∧
      run_forward_uint8 st' c1_w c2_w fc_w x = some (i, st') := by
  obtain ⟨i1, hrun1, ha1, _⟩ := run_forward_uint8_eq st1 c1_w c2_w fc_w x hst1 hx h1 h2 h3
  obtain ⟨i2, hrun2, ha2, _⟩ := run_forward_uint8_eq st2 c1_w c2_w fc_w x hst2 hx h1 h2 h3
  obtain ⟨i3, hrun3, ha3, _⟩ := run_forward_uint8_eq (forward_buffers c1_w c2_w fc_w x)
    c1_w c2_w fc_w x (forward_buffers_sized c1_w c2_w fc_w x) hx h1 h2 h3
  have e2 : i2 = i1 := Option.some.inj (ha2.symm.trans ha1)
  have e3 : i3 = i1 := Option.some.inj (ha3.symm.trans ha1)
  rw [e2] at hrun2
  rw [e3] at hrun3
  exact ⟨i1, _, hrun1, hrun2, forward_buffers_sized c1_w c2_w fc_w x, hrun3⟩

/-- Instance of C10: the zero-initialised buffers against buffers full of
stale values. -/
theorem run_forward_uint8_deterministic_witness :
    ∃ i st', run_forward_uint8 Scratch.zero (List.replicate 100 3) (List.replicate 1200 (-2))
        (List.replicate 1920 5) (List.replicate 784 200) = some (i, st') ∧
      run_forward_uint8 (forward_buffers (List.replicate 100 1) (List.replicate 1200 1)
        (List.replicate 1920 1) (List.replicate 784 9)) (List.replicate 100 3)
        (List.replicate 1200 (-2)) (List.replicate 1920 5) (List.replicate 784 200)
          = some (i, st') ∧
      st'.Sized ∧
      run_forward_uint8 st' (List.replicate 100 3) (List.replicate 1200 (-2))
        (List.replicate 1920 5) (List.replicate 784 200) = some (i, st') :=
  run_forward_uint8_deterministic Scratch.zero
    (forward_buffers (List.replicate 100 1) (List.replicate 1200 1)
      (List.replicate 1920 1) (List.replicate 784 9))
    (List.replicate 100 3) (List.replicate 1200 (-2)) (List.replicate 1920 5)
    (List.replicate 784 200) Scratch.zero_sized (forward_buffers_sized _ _ _ _)
    (List.length_replicate 784 200) (allU8_replicate 784 200 (by decide))
    (List.length_replicate 100 3) (allI8_replicate 100 3 (by decide))
    (List.length_replicate 1200 (-2)) (allI8_replicate 1200 (-2) (by decide))
    (List.length_replicate 1920 5) (allI8_replicate 1920 5 (by decide))


/-! ## Magnitude of the accumulators -/

theorem sum_range_bound (n : Nat) (f : Nat → Int) (B : Int)
    (h : ∀ i, i < n → -B ≤ f i ∧ f i ≤ B) :
    -(n * B) ≤ ∑ i ∈ Finset.range n, f i ∧ ∑ i ∈ Finset.range n, f i ≤ n * B := by
  induction n with
  | zero => simp
  | succ n ih =>
    have h1 := ih (fun i hi => h i (by omega))
    have h2 := h n (by omega)
    rw [Finset.sum_range_succ]
    push_cast
    constructor <;> linarith [h1.1, h1.2, h2.1, h2.2]

theorem getD_inI8 (b : List Int) (hb : AllI8 b) (i : Nat) (hi : i < b.length) :
    InI8 (b.getD i 0) := by
  have e : b.getD i 0 = b[i] := by simp [List.getD, List.getElem?_eq_getElem hi]
  rw [e]
  exact hb _ (List.getElem_mem hi)

theorem mul_u8_i8_bound (a b : Int) (ha : InU8 a) (hb : InI8 b) :
    -32640 ≤ a * b ∧ a * b ≤ 32640 := by
  unfold InU8 at ha
  unfold InI8 at hb
  constructor <;> nlinarith [ha.1, ha.2, hb.1, hb.2]

/-- Every exact convolution sum over a `uint8` input and `int8` weights is
bounded in magnitude by `Cin * 25 * 255 * 128`. -/
theorem conv_sum_bound (inp w : List Int) (Cin H W Cout co oh ow : Nat)
    (hin : inp.length = Cin * H * W) (hw : w.length = Cout * Cin * 25)
    (hinU8 : AllU8 inp) (hwI8 : AllI8 w)
    (hco : co < Cout) (hoh : oh + 5 ≤ H) (how : ow + 5 ≤ W) :
    -(Cin * 816000 : Int) ≤ conv_sum inp Cin H W w co oh ow ∧
      conv_sum inp Cin H W w co oh ow ≤ Cin * 816000 := by
  unfold conv_sum
  refine sum_range_bound Cin _ 816000 (fun ci hci => ?_)
  have h5 := sum_range_bound 5 (fun kh => ∑ kw ∈ Finset.range 5,
      inp.getD (ci * H * W + (oh + kh) * W + (ow + kw)) 0 *
        w.getD (co * Cin * 25 + ci * 25 + kh * 5 + kw) 0) 163200 (fun kh hkh => by
    have h := sum_range_bound 5 (fun kw =>
      inp.getD (ci * H * W + (oh + kh) * W + (ow + kw)) 0 *
        w.getD (co * Cin * 25 + ci * 25 + kh * 5 + kw) 0) 32640 (fun kw hkw =>
      mul_u8_i8_bound _ _
        (getD_inU8 inp hinU8 _ (hin ▸ conv_in_idx hci hoh how hkh hkw))
        (getD_inI8 w hwI8 _ (hw ▸ conv_w_idx hco hci hkh hkw)))
    norm_num at h ⊢
    exact h)
  norm_num at h5 ⊢
  exact h5


/-! ## The kernels against the specification -/

theorem decode_lt {C OH OW j : Nat} (hOH : 0 < OH) (hOW : 0 < OW) (hj : j < C * OH * OW) :
    j / OW / OH < C ∧ j / OW % OH < OH ∧ j % OW < OW := by
  refine ⟨?_, Nat.mod_lt _ hOH, Nat.mod_lt _ hOW⟩
  rw [Nat.div_lt_iff_lt_mul hOH, Nat.div_lt_iff_lt_mul hOW]
  exact hj

/-- Where the accumulator cannot overflow, the table of convolution cells
is the exact convolution of the specification. -/
theorem conv_table_eq_ref (inp w : List Int) (Cin H W Cout : Nat) (hH : 5 ≤ H) (hW : 5 ≤ W)
    (hin : inp.length = Cin * H * W) (hw : w.length = Cout * Cin * 25)
    (hinU8 : AllU8 inp) (hwI8 : AllI8 w) (hfit : (Cin : Int) * 816000 ≤ 2147483647)
    (n : Nat) (hn : n = Cout * (H + 1 - 5) * (W + 1 - 5)) :
    (List.range n).map (conv_cell inp Cin H W w) = conv_ref inp Cin H W w Cout := by
  subst hn
  unfold conv_ref
  simp only [KH, KW]
  have eH : H - 5 + 1 = H + 1 - 5 := by omega
  have eW : W - 5 + 1 = W + 1 - 5 := by omega
  rw [eH, eW]
  apply List.map_congr_left
  intro j hj
  have hj' := List.mem_range.mp hj
  obtain ⟨hco, hoh, how⟩ := decode_lt (by omega) (by omega) hj'
  have hb := conv_sum_bound inp w Cin H W Cout _ _ _ hin hw hinU8 hwI8 hco
    (show j / (W + 1 - 5) % (H + 1 - 5) + 5 ≤ H by omega)
    (show j % (W + 1 - 5) + 5 ≤ W by omega)
  unfold conv_cell
  rw [wrap32_of_inI32 _ ⟨by linarith [hb.1], by linarith [hb.2]⟩]
  unfold conv_sum
  rfl

theorem conv_ref_bound (inp w : List Int) (Cin H W Cout : Nat) (hH : 5 ≤ H) (hW : 5 ≤ W)
    (hin : inp.length = Cin * H * W) (hw : w.length = Cout * Cin * 25)
    (hinU8 : AllU8 inp) (hwI8 : AllI8 w) :
    ∀ v ∈ conv_ref inp Cin H W w Cout, -(Cin * 816000 : Int) ≤ v ∧ v ≤ Cin * 816000 := by
  intro v hv
  unfold conv_ref at hv
  simp only [KH, KW] at hv
  have eH : H - 5 + 1 = H + 1 - 5 := by omega
  have eW : W - 5 + 1 = W + 1 - 5 := by omega
  rw [eH, eW] at hv
  obtain ⟨j, hj, rfl⟩ := List.mem_map.mp hv
  have hj' := List.mem_range.mp hj
  obtain ⟨hco, hoh, how⟩ := decode_lt (by omega) (by omega) hj'
  exact conv_sum_bound inp w Cin H W Cout _ _ _ hin hw hinU8 hwI8 hco
    (show j / (W + 1 - 5) % (H + 1 - 5) + 5 ≤ H by omega)
    (show j % (W + 1 - 5) + 5 ≤ W by omega)

theorem conv_ref_length (inp w : List Int) (Cin H W Cout : Nat) :
    (conv_ref inp Cin H W w Cout).length = Cout * (H - KH + 1) * (W - KW + 1) := by
  unfold conv_ref
  simp

/-- Below the overflow threshold of the rounding add, the quantized table is
the quantization of the specification. -/
theorem quant_table_eq_ref (acc : List Int) (n : Nat) (hn : n = acc.length)
    (hmax : ∀ v ∈ acc, v ≤ 2147483583) :
    (List.range n).map (fun j => quant_relu_elem (acc.getD j 0)) = quant_ref acc := by
  unfold quant_ref
  apply List.ext_getElem?
  intro j
  by_cases hj : j < n
  · have hj' : j < acc.length := by omega
    rw [List.getElem?_map, List.getElem?_range hj, List.getElem?_map,
      List.getElem?_eq_getElem hj']
    have e : acc.getD j 0 = acc[j] := by simp [List.getD, List.getElem?_eq_getElem hj']
    simp only [Option.map_some', e]
    congr 1
    by_cases hv : acc[j] ≤ 0
    · rw [quant_relu_elem_nonpos _ hv, if_pos hv]
    · rw [quant_relu_elem_pos _ (by omega) (hmax _ (List.getElem_mem hj')), if_neg hv]
  · rw [List.getElem?_eq_none (by simp; omega), List.getElem?_eq_none (by simp; omega)]

theorem quant_ref_allU8 (acc : List Int) : AllU8 (quant_ref acc) := by
  intro z hz
  unfold quant_ref at hz
  obtain ⟨v, _, rfl⟩ := List.mem_map.mp hz
  unfold InU8
  split <;> omega

theorem quant_ref_length (acc : List Int) : (quant_ref acc).length = acc.length := by
  unfold quant_ref
  simp


theorem getD_inU8_any (b : List Int) (hb : AllU8 b) (i : Nat) : InU8 (b.getD i 0) := by
  by_cases hi : i < b.length
  · exact getD_inU8 b hb i hi
  · have e : b.getD i 0 = 0 := by simp [List.getD, List.getElem?_eq_none (Nat.le_of_not_lt hi)]
    rw [e]
    decide

/-- On a `uint8` input the table of 2x2, stride-2 pooling cells is the
max-pooling of the specification. -/
theorem pool_table_eq_ref (inp : List Int) (C H W OH OW : Nat) (hH : H = 2 * OH)
    (hW : W = 2 * OW) (hin : inp.length = C * H * W) (hU8 : AllU8 inp)
    (n : Nat) (hn : n = C * OH * OW) :
    (List.range n).map (pool_cell inp H W 2 2 OH OW) = pool2_ref inp C H W := by
  subst hn
  unfold pool2_ref
  have eH : H / 2 = OH := by omega
  have eW : W / 2 = OW := by omega
  rw [eH, eW]
  apply List.map_congr_left
  intro j hj
  have hj' := List.mem_range.mp hj
  have hOH : 0 < OH := by
    rcases Nat.eq_zero_or_pos OH with h | h
    · rw [h] at hj'; simp at hj'
    · exact h
  have hOW : 0 < OW := by
    rcases Nat.eq_zero_or_pos OW with h | h
    · rw [h] at hj'; simp at hj'
    · exact h
  obtain ⟨hc, hoh, how⟩ := decode_lt hOH hOW hj'
  unfold pool_cell
  generalize j / OW / OH = c at hc ⊢
  generalize j / OW % OH = oh at hoh ⊢
  generalize j % OW = ow at how ⊢
  obtain ⟨m, hm, hub, hatt⟩ := maxpool_window_spec inp C H W 2 2 c oh ow hin hc
    (by omega) (by omega)
  have e00 : c * H * W + ((oh * 2 + 0) * W + (ow * 2 + 0))
      = c * H * W + (2 * oh) * W + 2 * ow := by ring
  have e01 : c * H * W + ((oh * 2 + 0) * W + (ow * 2 + 1))
      = c * H * W + (2 * oh) * W + (2 * ow + 1) := by ring
  have e10 : c * H * W + ((oh * 2 + 1) * W + (ow * 2 + 0))
      = c * H * W + (2 * oh + 1) * W + 2 * ow := by ring
  have e11 : c * H * W + ((oh * 2 + 1) * W + (ow * 2 + 1))
      = c * H * W + (2 * oh + 1) * W + (2 * ow + 1) := by ring
  have u00 := hub 0 0 (by omega) (by omega)
  have u01 := hub 0 1 (by omega) (by omega)
  have u10 := hub 1 0 (by omega) (by omega)
  have u11 := hub 1 1 (by omega) (by omega)
  rw [e00] at u00
  rw [e01] at u01
  rw [e10] at u10
  rw [e11] at u11
  have n00 := (getD_inU8_any inp hU8 (c * H * W + (2 * oh) * W + 2 * ow)).1
  have hval : m = max (max (inp.getD (c * H * W + (2 * oh) * W + 2 * ow) 0)
             (inp.getD (c * H * W + (2 * oh) * W + (2 * ow + 1)) 0))
        (max (inp.getD (c * H * W + (2 * oh + 1) * W + 2 * ow) 0)
             (inp.getD (c * H * W + (2 * oh + 1) * W + (2 * ow + 1)) 0)) := by
    rcases hatt with h0 | ⟨kh, kw, hkh, hkw, hv⟩
    · omega
    · interval_cases kh <;> interval_cases kw
      · rw [e00] at hv; omega
      · rw [e01] at hv; omega
      · rw [e10] at hv; omega
      · rw [e11] at hv; omega
  rw [hm]
  exact hval


theorem pool2_ref_allU8 (inp : List Int) (C H W : Nat) (hU8 : AllU8 inp) :
    AllU8 (pool2_ref inp C H W) := by
  intro z hz
  unfold pool2_ref at hz
  obtain ⟨j, _, rfl⟩ := List.mem_map.mp hz
  have a := getD_inU8_any inp hU8
    (j / (W / 2) / (H / 2) * H * W + 2 * (j / (W / 2) % (H / 2)) * W + 2 * (j % (W / 2)))
  have b := getD_inU8_any inp hU8
    (j / (W / 2) / (H / 2) * H * W + 2 * (j / (W / 2) % (H / 2)) * W + (2 * (j % (W / 2)) + 1))
  have c := getD_inU8_any inp hU8
    (j / (W / 2) / (H / 2) * H * W + (2 * (j / (W / 2) % (H / 2)) + 1) * W + 2 * (j % (W / 2)))
  have d := getD_inU8_any inp hU8
    (j / (W / 2) / (H / 2) * H * W + (2 * (j / (W / 2) % (H / 2)) + 1) * W
      + (2 * (j % (W / 2)) + 1))
  unfold InU8 at a b c d ⊢
  dsimp only
  omega

theorem pool2_ref_length (inp : List Int) (C H W : Nat) :
    (pool2_ref inp C H W).length = C * (H / 2) * (W / 2) := by
  unfold pool2_ref
  simp

/-- The copy of the pooled buffer is the flatten of the specification. -/
theorem flatten_table_eq_ref (t : List Int) :
    (List.range FC_IN).map (fun j => t.getD j 0) = flatten_ref t := by
  rfl

theorem flatten_ref_allU8 (t : List Int) (hU8 : AllU8 t) : AllU8 (flatten_ref t) := by
  rw [← flatten_table_eq_ref]
  intro z hz
  obtain ⟨j, _, rfl⟩ := List.mem_map.mp hz
  exact getD_inU8_any t hU8 j

theorem flatten_ref_length (t : List Int) : (flatten_ref t).length = 192 := by
  rw [← flatten_table_eq_ref]
  simp [FC_IN]

/-- Every exact dot product of an `int8` row with a `uint8` vector is
bounded in magnitude by `Cin * 255 * 128`. -/
theorem fc_sum_bound (w x : List Int) (Cout Cin o : Nat)
    (hw : w.length = Cout * Cin) (hx : x.length = Cin) (hwI8 : AllI8 w) (hxU8 : AllU8 x)
    (ho : o < Cout) :
    -(Cin * 32640 : Int) ≤ fc_sum w Cin x o ∧ fc_sum w Cin x o ≤ Cin * 32640 := by
  unfold fc_sum
  refine sum_range_bound Cin _ 32640 (fun i hi => ?_)
  have h := mul_u8_i8_bound _ _ (getD_inU8 x hxU8 i (hx ▸ hi))
    (getD_inI8 w hwI8 (o * Cin + i) (hw ▸ idx2_lt ho hi))
  rw [mul_comm] at h
  exact h

/-- Where the accumulator cannot overflow, the table of fully-connected
cells is the projection of the specification. -/
theorem fc_table_eq_ref (w x : List Int) (Cout Cin : Nat)
    (hw : w.length = Cout * Cin) (hx : x.length = Cin) (hwI8 : AllI8 w) (hxU8 : AllU8 x)
    (hfit : (Cin : Int) * 32640 ≤ 2147483647) :
    (List.range Cout).map (fc_cell w Cin x) = fc_ref w Cout Cin x := by
  unfold fc_ref
  apply List.map_congr_left
  intro o ho
  have hb := fc_sum_bound w x Cout Cin o hw hx hwI8 hxU8 (List.mem_range.mp ho)
  unfold fc_cell
  rw [wrap32_of_inI32 _ ⟨by linarith [hb.1], by linarith [hb.2]⟩]
  rfl

theorem fc_ref_length (w x : List Int) (Cout Cin : Nat) :
    (fc_ref w Cout Cin x).length = Cout := by
  unfold fc_ref
  simp

/-- An index that holds a maximal entry with only strictly smaller entries
before it is the argmax of the specification. -/
theorem argmax_ref_eq (L : List Int) (i : Nat) (hi : i < L.length)
    (hmax : ∀ j, j < L.length → L.getD j 0 ≤ L.getD i 0)
    (hlt : ∀ j, j < i → L.getD j 0 < L.getD i 0) : argmax_ref L = i := by
  have hget : ∀ j (hj : j < L.length), L.getD j 0 = L[j] := fun j hj => by
    simp [List.getD, List.getElem?_eq_getElem hj]
  unfold argmax_ref
  rw [List.findIdx_eq hi]
  constructor
  · rw [decide_eq_true_eq]
    intro u hu
    obtain ⟨j, hj, rfl⟩ := List.getElem_of_mem hu
    rw [← hget j hj, ← hget i hi]
    exact hmax j hj
  · intro j hji
    rw [decide_eq_false_iff_not]
    intro hall
    have h1 := hall L[i] (List.getElem_mem hi)
    have h2 := hlt j hji
    rw [hget j (by omega), hget i hi] at h2
    omega


/-! ## The pipeline against the specification -/

theorem forward_buffers_c1_acc (c1_w c2_w fc_w x : List Int) :
    (forward_buffers c1_w c2_w fc_w x).c1_acc
      = (List.range 2304).map (conv_cell x 1 28 28 c1_w) := by
  unfold forward_buffers
  simp only [C1_OUT, C1_H, C1_W, IN_C, IN_H, IN_W, Nat.reduceMul]

theorem forward_buffers_c1_feat (c1_w c2_w fc_w x : List Int) :
    (forward_buffers c1_w c2_w fc_w x).c1_feat
      = (List.range 2304).map
        (fun j => quant_relu_elem ((forward_buffers c1_w c2_w fc_w x).c1_acc.getD j 0)) := by
  unfold forward_buffers
  simp only [C1_OUT, C1_H, C1_W, IN_C, IN_H, IN_W, Nat.reduceMul]

theorem forward_buffers_p1 (c1_w c2_w fc_w x : List Int) :
    (forward_buffers c1_w c2_w fc_w x).p1
      = (List.range 576).map
        (pool_cell (forward_buffers c1_w c2_w fc_w x).c1_feat 24 24 2 2 12 12) := by
  unfold forward_buffers
  simp only [C1_OUT, C1_H, C1_W, IN_C, IN_H, IN_W, P1_H, P1_W, Nat.reduceMul]

theorem forward_buffers_c2_acc (c1_w c2_w fc_w x : List Int) :
    (forward_buffers c1_w c2_w fc_w x).c2_acc
      = (List.range 768).map
        (conv_cell (forward_buffers c1_w c2_w fc_w x).p1 4 12 12 c2_w) := by
  unfold forward_buffers
  simp only [C1_OUT, C1_H, C1_W, IN_C, IN_H, IN_W, P1_H, P1_W, C2_OUT, C2_H, C2_W,
    Nat.reduceMul]

theorem forward_buffers_c2_feat (c1_w c2_w fc_w x : List Int) :
    (forward_buffers c1_w c2_w fc_w x).c2_feat
      = (List.range 768).map
        (fun j => quant_relu_elem ((forward_buffers c1_w c2_w fc_w x).c2_acc.getD j 0)) := by
  unfold forward_buffers
  simp only [C1_OUT, C1_H, C1_W, IN_C, IN_H, IN_W, P1_H, P1_W, C2_OUT, C2_H, C2_W,
    Nat.reduceMul]

theorem forward_buffers_p2 (c1_w c2_w fc_w x : List Int) :
    (forward_buffers c1_w c2_w fc_w x).p2
      = (List.range 192).map
        (pool_cell (forward_buffers c1_w c2_w fc_w x).c2_feat 8 8 2 2 4 4) := by
  unfold forward_buffers
  simp only [C1_OUT, C1_H, C1_W, IN_C, IN_H, IN_W, P1_H, P1_W, C2_OUT, C2_H, C2_W,
    P2_H, P2_W, Nat.reduceMul]

theorem forward_buffers_fc_in (c1_w c2_w fc_w x : List Int) :
    (forward_buffers c1_w c2_w fc_w x).fc_in
      = (List.range FC_IN).map
        (fun j => (forward_buffers c1_w c2_w fc_w x).p2.getD j 0) := by
  unfold forward_buffers
  simp only []

theorem forward_buffers_logits_acc (c1_w c2_w fc_w x : List Int) :
    (forward_buffers c1_w c2_w fc_w x).logits_acc
      = (List.range 10).map
        (fc_cell fc_w 192 (forward_buffers c1_w c2_w fc_w x).fc_in) := by
  unfold forward_buffers
  simp only [C1_OUT, C1_H, C1_W, IN_C, IN_H, IN_W, P1_H, P1_W, C2_OUT, C2_H, C2_W,
    P2_H, P2_W, FC_IN, FC_OUT, Nat.reduceMul]


/-- C7: for every 28x28 `uint8` image and `int8` weight tensors `c1_w`
(4x1x5x5), `c2_w` (12x4x5x5), `fc_w` (10x192), `ps_forward_one` returns
normally with the prediction
`argmax(fc(flatten(pool(quant(conv(pool(quant(conv(x, c1_w))), c2_w))), fc_w))`,
where `conv`, `quant`, `pool`, `flatten`, `fc`, `argmax` are the exact
functions of the specification, and the buffers it leaves are the
intermediate tensors of that composition, of shapes 4x24x24, 4x12x12,
12x8x8, 12x4x4, 192 and 10. -/
theorem ps_forward_one_refines (st : Scratch) (x c1_w c2_w fc_w : List Int)
    (hst : st.Sized) (hx : x.length = 1 * 28 * 28) (hxU8 : AllU8 x)
    (h1 : c1_w.length = 4 * 1 * 25) (h1I8 : AllI8 c1_w)
    (h2 : c2_w.length = 12 * 4 * 25) (h2I8 : AllI8 c2_w)
    (h3 : fc_w.length = 10 * 192) (h3I8 : AllI8 fc_w) :
    ∃ st', ps_forward_one st x c1_w c2_w fc_w = some (net_ref x c1_w c2_w fc_w, st') ∧
      st'.c1_acc = conv_ref x 1 28 28 c1_w 4 ∧ st'.c1_acc.length = 4 * 24 * 24 ∧
      st'.c1_feat = quant_ref st'.c1_acc ∧ st'.c1_feat.length = 4 * 24 * 24 ∧
      st'.p1 = pool2_ref st'.c1_feat 4 24 24 ∧ st'.p1.length = 4 * 12 * 12 ∧
      st'.c2_acc = conv_ref st'.p1 4 12 12 c2_w 12 ∧ st'.c2_acc.length = 12 * 8 * 8 ∧
      st'.c2_feat = quant_ref st'.c2_acc ∧ st'.c2_feat.length = 12 * 8 * 8 ∧
      st'.p2 = pool2_ref st'.c2_feat 12 8 8 ∧ st'.p2.length = 12 * 4 * 4 ∧
      st'.fc_in = flatten_ref st'.p2 ∧ st'.fc_in.length = 192 ∧
      st'.logits_acc = fc_ref fc_w 10 192 st'.fc_in ∧ st'.logits_acc.length = 10 := by
  obtain ⟨i, hrun, _, hi, hmax, hlt⟩ :=
    run_forward_uint8_eq st c1_w c2_w fc_w x hst hx h1 h2 h3
  obtain ⟨s1, s2, s3, s4, s5, s6, s7, s8⟩ := forward_buffers_sized c1_w c2_w fc_w x
  simp only [C1_OUT, C1_H, C1_W, C2_OUT, C2_H, C2_W, P1_H, P1_W, P2_H, P2_W, FC_IN, FC_OUT,
    Nat.reduceMul] at s1 s2 s3 s4 s5 s6 s7 s8
  have A1 : (forward_buffers c1_w c2_w fc_w x).c1_acc = conv_ref x 1 28 28 c1_w 4 :=
    (forward_buffers_c1_acc c1_w c2_w fc_w x).trans
      (conv_table_eq_ref x c1_w 1 28 28 4 (by decide) (by decide) hx h1 hxU8 h1I8
        (by norm_num) 2304 (by decide))
  have Q1 : (forward_buffers c1_w c2_w fc_w x).c1_feat
      = quant_ref (forward_buffers c1_w c2_w fc_w x).c1_acc :=
    (forward_buffers_c1_feat c1_w c2_w fc_w x).trans
      (quant_table_eq_ref _ 2304 s1.symm (fun v hv => by
        rw [A1] at hv
        have := (conv_ref_bound x c1_w 1 28 28 4 (by decide) (by decide) hx h1 hxU8 h1I8
          v hv).2
        norm_num at this
        omega))
  have U1 : AllU8 (forward_buffers c1_w c2_w fc_w x).c1_feat := Q1 ▸ quant_ref_allU8 _
  have P1 : (forward_buffers c1_w c2_w fc_w x).p1
      = pool2_ref (forward_buffers c1_w c2_w fc_w x).c1_feat 4 24 24 :=
    (forward_buffers_p1 c1_w c2_w fc_w x).trans
      (pool_table_eq_ref _ 4 24 24 12 12 (by decide) (by decide) (by rw [s4]) U1 576
        (by decide))
  have V1 : AllU8 (forward_buffers c1_w c2_w fc_w x).p1 := P1 ▸ pool2_ref_allU8 _ _ _ _ U1
  have A2 : (forward_buffers c1_w c2_w fc_w x).c2_acc
      = conv_ref (forward_buffers c1_w c2_w fc_w x).p1 4 12 12 c2_w 12 :=
    (forward_buffers_c2_acc c1_w c2_w fc_w x).trans
      (conv_table_eq_ref _ c2_w 4 12 12 12 (by decide) (by decide) (by rw [s5]) h2 V1 h2I8
        (by norm_num) 768 (by decide))
  have Q2 : (forward_buffers c1_w c2_w fc_w x).c2_feat
      = quant_ref (forward_buffers c1_w c2_w fc_w x).c2_acc :=
    (forward_buffers_c2_feat c1_w c2_w fc_w x).trans
      (quant_table_eq_ref _ 768 s2.symm (fun v hv => by
        rw [A2] at hv
        have := (conv_ref_bound _ c2_w 4 12 12 12 (by decide) (by decide) (by rw [s5]) h2 V1
          h2I8 v hv).2
        norm_num at this
        omega))
  have U2 : AllU8 (forward_buffers c1_w c2_w fc_w x).c2_feat := Q2 ▸ quant_ref_allU8 _
  have P2 : (forward_buffers c1_w c2_w fc_w x).p2
      = pool2_ref (forward_buffers c1_w c2_w fc_w x).c2_feat 12 8 8 :=
    (forward_buffers_p2 c1_w c2_w fc_w x).trans
      (pool_table_eq_ref _ 12 8 8 4 4 (by decide) (by decide) (by rw [s6]) U2 192
        (by decide))
  have V2 : AllU8 (forward_buffers c1_w c2_w fc_w x).p2 := P2 ▸ pool2_ref_allU8 _ _ _ _ U2
  have F : (forward_buffers c1_w c2_w fc_w x).fc_in
      = flatten_ref (forward_buffers c1_w c2_w fc_w x).p2 :=
    (forward_buffers_fc_in c1_w c2_w fc_w x).trans (flatten_table_eq_ref _)
  have W : AllU8 (forward_buffers c1_w c2_w fc_w x).fc_in := F ▸ flatten_ref_allU8 _ V2
  have L : (forward_buffers c1_w c2_w fc_w x).logits_acc
      = fc_ref fc_w 10 192 (forward_buffers c1_w c2_w fc_w x).fc_in :=
    (forward_buffers_logits_acc c1_w c2_w fc_w x).trans
      (fc_table_eq_ref fc_w _ 10 192 h3 s8 h3I8 W (by norm_num))
  have hnet : net_ref x c1_w c2_w fc_w = i := by
    have e : net_ref x c1_w c2_w fc_w
        = argmax_ref (forward_buffers c1_w c2_w fc_w x).logits_acc := by
      unfold net_ref
      rw [L, F, P2, Q2, A2, P1, Q1, A1]
    rw [e]
    exact argmax_ref_eq _ i (by rw [s3]; exact hi) (fun j hj => hmax j (by rw [s3] at hj; exact hj))
      hlt
  refine ⟨forward_buffers c1_w c2_w fc_w x, ?_, A1, s1, Q1, s4, P1, s5, A2, s2, Q2, s6, P2, s7,
    F, s8, L, s3⟩
  rw [hnet]
  exact hrun


/-- Instance of C7: a uniform grey image against constant weights, from the
zero-initialised work buffers. -/
theorem ps_forward_one_refines_witness :
    ∃ st', ps_forward_one Scratch.zero (List.replicate 784 200) (List.replicate 100 3)
        (List.replicate 1200 (-2)) (List.replicate 1920 5)
        = some (net_ref (List.replicate 784 200) (List.replicate 100 3)
            (List.replicate 1200 (-2)) (List.replicate 1920 5), st') ∧
      st'.c1_acc = conv_ref (List.replicate 784 200) 1 28 28 (List.replicate 100 3) 4 ∧
      st'.c1_acc.length = 4 * 24 * 24 ∧
      st'.c1_feat = quant_ref st'.c1_acc ∧ st'.c1_feat.length = 4 * 24 * 24 ∧
      st'.p1 = pool2_ref st'.c1_feat 4 24 24 ∧ st'.p1.length = 4 * 12 * 12 ∧
      st'.c2_acc = conv_ref st'.p1 4 12 12 (List.replicate 1200 (-2)) 12 ∧
      st'.c2_acc.length = 12 * 8 * 8 ∧
      st'.c2_feat = quant_ref st'.c2_acc ∧ st'.c2_feat.length = 12 * 8 * 8 ∧
      st'.p2 = pool2_ref st'.c2_feat 12 8 8 ∧ st'.p2.length = 12 * 4 * 4 ∧
      st'.fc_in = flatten_ref st'.p2 ∧ st'.fc_in.length = 192 ∧
      st'.logits_acc = fc_ref (List.replicate 1920 5) 10 192 st'.fc_in ∧
      st'.logits_acc.length = 10 :=
  ps_forward_one_refines Scratch.zero (List.replicate 784 200) (List.replicate 100 3)
    (List.replicate 1200 (-2)) (List.replicate 1920 5) Scratch.zero_sized
    (List.length_replicate 784 200) (allU8_replicate 784 200 (by decide))
    (List.length_replicate 100 3) (allI8_replicate 100 3 (by decide))
    (List.length_replicate 1200 (-2)) (allI8_replicate 1200 (-2) (by decide))
    (List.length_replicate 1920 5) (allI8_replicate 1920 5 (by decide))

/-! ## Monotonicity of the quantization -/

/-- C19: on the range where `v + 64` does not overflow the quantization map
of `quant_relu_uint8_downscale` is monotone non-decreasing: for `int32_t`
values `v1 ≤ v2 ≤ 2^31 - 65` the output for `v1` is at most the output for
`v2`. -/
theorem quant_relu_elem_monotone (v1 v2 : Int) (_h1 : InI32 v1) (h12 : v1 ≤ v2)
    (h2 : v2 ≤ 2147483583) : quant_relu_elem v1 ≤ quant_relu_elem v2 := by
  by_cases hv1 : v1 ≤ 0
  · rw [quant_relu_elem_nonpos v1 hv1]
    exact (quant_relu_elem_inU8 v2).1
  · rw [quant_relu_elem_pos v1 (by omega) (by omega), quant_relu_elem_pos v2 (by omega) h2]
    omega

/-- Instance of C19: the accumulators 63 and 64 straddle the first rounding
threshold. -/
theorem quant_relu_elem_monotone_witness :
    InI32 63 ∧ quant_relu_elem 63 ≤ quant_relu_elem 64 :=
  ⟨by decide, quant_relu_elem_monotone 63 64 (by decide) (by decide) (by decide)⟩

/-! ## Argmax and order-preserving maps -/

theorem getD_map_of_lt (f : Int → Int) (L : List Int) (j : Nat) (hj : j < L.length) :
    (L.map f).getD j 0 = f (L.getD j 0) := by
  simp [List.getD, List.getElem?_map, List.getElem?_eq_getElem hj]

/-- C16: the predicted class depends only on the ranking of the logits: for
every vector `L` of 10 integers and every strictly increasing `f`, the argmax
of `run_forward_uint8` returns on `(f (L[0]), ..., f (L[9]))` the index it
returns on `L`. -/
theorem argmax_strictMono (L : List Int) (f : Int → Int) (hlen : L.length = 10)
    (hf : StrictMono f) :
    ∃ i, argmax L = some i ∧ argmax (L.map f) = some i := by
  obtain ⟨i, hi, hi10, hmax, hlt⟩ := argmax_spec L hlen
  obtain ⟨k, hk, hk10, kmax, klt⟩ := argmax_spec (L.map f) (by simp [hlen])
  have hm : ∀ j, j < 10 → (L.map f).getD j 0 = f (L.getD j 0) :=
    fun j hj => getD_map_of_lt f L j (by omega)
  have e : k = i := by
    rcases Nat.lt_trichotomy k i with h | h | h
    · exfalso
      have h1 := hf (hlt k h)
      have h2 := kmax i hi10
      rw [hm i hi10, hm k hk10] at h2
      exact absurd h1 (not_lt.mpr h2)
    · exact h
    · exfalso
      have h1 := klt i h
      rw [hm i hi10, hm k hk10] at h1
      have h2 := hf.lt_iff_lt.mp h1
      exact absurd h2 (not_lt.mpr (hmax k hk10))
  exact ⟨i, hi, e ▸ hk⟩

/-- Instance of C16: the logits `[5, 5, 3, ...]` under `z ↦ 2 * z + 1`. -/
theorem argmax_strictMono_witness :
    ∃ i, argmax [5, 5, 3, 1, 0, -2, 4, 5, -7, 2] = some i ∧
      argmax ([5, 5, 3, 1, 0, -2, 4, 5, -7, 2].map (fun z => 2 * z + 1)) = some i :=
  argmax_strictMono [5, 5, 3, 1, 0, -2, 4, 5, -7, 2] (fun z => 2 * z + 1) (by decide)
    (fun a b h => by show 2 * a + 1 < 2 * b + 1; omega)

/-! ## Magnitude and linearity of the convolution -/

set_option maxRecDepth 100000 in
/-- C12 as stated fails: with one input channel, every pixel 255 and every
weight -128 the accumulator is -816000, of magnitude above
`255 * 127 * 1 * 25 = 809625`. -/
theorem conv5x5_magnitude_counterexample :
    AllU8 (List.replicate 25 255) ∧ AllI8 (List.replicate 25 (-128)) ∧
      conv5x5_nchw_u8_i8 (List.replicate 25 255) 1 5 5 (List.replicate 25 (-128)) 1 [0]
        = some [-816000] ∧
      (255 * 127 * 1 * 25 : Int) < |(-816000 : Int)| := by
  refine ⟨by decide, by decide, by decide, by decide⟩

/-- C12 amended: for every `Cin`, every `uint8` input and every `int8` weight
tensor (weights down to -128), every accumulator that `conv5x5_nchw_u8_i8`
produces has magnitude at most `255 * 128 * Cin * 25`. -/
theorem conv5x5_magnitude (Cin Cout H W : Nat) (inp w out : List Int)
    (hH : 5 ≤ H) (hW : 5 ≤ W)
    (hin : inp.length = Cin * H * W) (hinU8 : AllU8 inp)
    (hw : w.length = Cout * Cin * 25) (hwI8 : AllI8 w)
    (hout : Cout * (H - 5 + 1) * (W - 5 + 1) ≤ out.length) :
    ∃ out', conv5x5_nchw_u8_i8 inp Cin H W w Cout out = some out' ∧
      ∀ co oh ow, co < Cout → oh < H - 5 + 1 → ow < W - 5 + 1 →
        ∃ v, out'[(co * (H - 5 + 1) + oh) * (W - 5 + 1) + ow]? = some v ∧
          |v| ≤ 255 * 128 * (Cin : Int) * 25 := by
  have eH : H - 5 + 1 = H + 1 - 5 := by omega
  have eW : W - 5 + 1 = W + 1 - 5 := by omega
  rw [eH, eW] at hout ⊢
  obtain ⟨out', hrun, hF⟩ := conv5x5_fill inp w out Cin H W Cout hin hw hout
  refine ⟨out', hrun, ?_⟩
  intro co oh ow hco hoh how
  have hlt : (co * (H + 1 - 5) + oh) * (W + 1 - 5) + ow
      < Cout * (H + 1 - 5) * (W + 1 - 5) := idx2_lt (idx2_lt hco hoh) how
  have hcell : conv_cell inp Cin H W w ((co * (H + 1 - 5) + oh) * (W + 1 - 5) + ow)
      = wrap32 (conv_sum inp Cin H W w co oh ow) := by
    unfold conv_cell
    rw [idx2_mod how, idx2_div how, idx2_mod hoh, idx2_div hoh]
  have hget := hF.get_lt hlt
  rw [hcell] at hget
  refine ⟨_, hget, ?_⟩
  have hb := conv_sum_bound inp w Cin H W Cout co oh ow hin hw hinU8 hwI8 hco
    (by omega) (by omega)
  rw [abs_le]
  by_cases hfit : (Cin : Int) * 816000 ≤ 2147483647
  · rw [wrap32_of_inI32 _ ⟨by linarith [hb.1], by linarith [hb.2]⟩]
    constructor <;> linarith [hb.1, hb.2]
  · have hr := wrap32_inI32 (conv_sum inp Cin H W w co oh ow)
    unfold InI32 at hr
    constructor <;> omega

/-- Instance of amended C12, at the input of the counterexample. -/
theorem conv5x5_magnitude_witness :
    ∃ out', conv5x5_nchw_u8_i8 (List.replicate 25 255) 1 5 5 (List.replicate 25 (-128)) 1 [0]
        = some out' ∧
      ∀ co oh ow, co < 1 → oh < 5 - 5 + 1 → ow < 5 - 5 + 1 →
        ∃ v, out'[(co * (5 - 5 + 1) + oh) * (5 - 5 + 1) + ow]? = some v ∧
          |v| ≤ 255 * 128 * ((1 : Nat) : Int) * 25 :=
  conv5x5_magnitude 1 1 5 5 (List.replicate 25 255) (List.replicate 25 (-128)) [0]
    (by decide) (by decide) (by decide) (by decide) (by decide) (by decide) (by decide)

theorem getD_map_mul (c : Int) (w : List Int) (i : Nat) :
    (w.map (fun z => c * z)).getD i 0 = c * w.getD i 0 := by
  by_cases hi : i < w.length
  · simp [List.getD, List.getElem?_map, List.getElem?_eq_getElem hi]
  · have h1 : w.length ≤ i := Nat.le_of_not_lt hi
    simp [List.getD, List.getElem?_eq_none h1]

theorem conv_sum_scale (inp w : List Int) (Cin H W co oh ow : Nat) (c : Int) :
    conv_sum inp Cin H W (w.map (fun z => c * z)) co oh ow
      = c * conv_sum inp Cin H W w co oh ow := by
  unfold conv_sum
  simp only [getD_map_mul, Finset.mul_sum]
  refine Finset.sum_congr rfl (fun ci _ => Finset.sum_congr rfl (fun kh _ =>
    Finset.sum_congr rfl (fun kw _ => ?_)))
  ring

/-- C13: for every input tensor, weight tensor `w` and integer factor `c`
such that every scaled weight `c * w[t]` is still an `int8` value and no
accumulator overflows, `conv5x5_nchw_u8_i8` on the scaled weights yields at
every output position exactly `c` times the accumulator obtained with
`w`. -/
theorem conv5x5_weight_scaling (Cin Cout H W : Nat) (inp w out1 out2 : List Int) (c : Int)
    (hH : 5 ≤ H) (hW : 5 ≤ W)
    (hin : inp.length = Cin * H * W) (_hinU8 : AllU8 inp)
    (hw : w.length = Cout * Cin * 25) (_hwI8 : AllI8 w)
    (_hcI8 : AllI8 (w.map (fun z => c * z)))
    (hout1 : Cout * (H - 5 + 1) * (W - 5 + 1) ≤ out1.length)
    (hout2 : Cout * (H - 5 + 1) * (W - 5 + 1) ≤ out2.length)
    (hfit : ∀ co oh ow, co < Cout → oh < H - 5 + 1 → ow < W - 5 + 1 →
      InI32 (conv_sum inp Cin H W w co oh ow) ∧
      InI32 (conv_sum inp Cin H W (w.map (fun z => c * z)) co oh ow)) :
    ∃ o1 o2, conv5x5_nchw_u8_i8 inp Cin H W w Cout out1 = some o1 ∧
      conv5x5_nchw_u8_i8 inp Cin H W (w.map (fun z => c * z)) Cout out2 = some o2 ∧
      ∀ co oh ow, co < Cout → oh < H - 5 + 1 → ow < W - 5 + 1 →
        ∃ v, o1[(co * (H - 5 + 1) + oh) * (W - 5 + 1) + ow]? = some v ∧
          o2[(co * (H - 5 + 1) + oh) * (W - 5 + 1) + ow]? = some (c * v) := by
  have eH : H - 5 + 1 = H + 1 - 5 := by omega
  have eW : W - 5 + 1 = W + 1 - 5 := by omega
  rw [eH, eW] at hout1 hout2 hfit ⊢
  obtain ⟨o1, hrun1, hF1⟩ := conv5x5_fill inp w out1 Cin H W Cout hin hw hout1
  obtain ⟨o2, hrun2, hF2⟩ := conv5x5_fill inp (w.map (fun z => c * z)) out2 Cin H W Cout hin
    (by rw [List.length_map]; exact hw) hout2
  refine ⟨o1, o2, hrun1, hrun2, ?_⟩
  intro co oh ow hco hoh how
  have hlt : (co * (H + 1 - 5) + oh) * (W + 1 - 5) + ow
      < Cout * (H + 1 - 5) * (W + 1 - 5) := idx2_lt (idx2_lt hco hoh) how
  have hcell : ∀ w' : List Int,
      conv_cell inp Cin H W w' ((co * (H + 1 - 5) + oh) * (W + 1 - 5) + ow)
        = wrap32 (conv_sum inp Cin H W w' co oh ow) := by
    intro w'
    unfold conv_cell
    rw [idx2_mod how, idx2_div how, idx2_mod hoh, idx2_div hoh]
  have hg1 := hF1.get_lt hlt
  have hg2 := hF2.get_lt hlt
  obtain ⟨f1, f2⟩ := hfit co oh ow hco hoh how
  rw [hcell, wrap32_of_inI32 _ f1] at hg1
  rw [hcell, wrap32_of_inI32 _ f2, conv_sum_scale] at hg2
  exact ⟨_, hg1, hg2⟩

theorem conv_sum_inI32 (inp w : List Int) (Cin H W Cout co oh ow : Nat)
    (hin : inp.length = Cin * H * W) (hw : w.length = Cout * Cin * 25)
    (hinU8 : AllU8 inp) (hwI8 : AllI8 w)
    (hco : co < Cout) (hoh : oh + 5 ≤ H) (how : ow + 5 ≤ W)
    (hfit : (Cin : Int) * 816000 ≤ 2147483647) :
    InI32 (conv_sum inp Cin H W w co oh ow) := by
  have hb := conv_sum_bound inp w Cin H W Cout co oh ow hin hw hinU8 hwI8 hco hoh how
  exact ⟨by linarith [hb.1], by linarith [hb.2]⟩

/-- Instance of C13: a kernel of 3s doubled to a kernel of 6s. -/
theorem conv5x5_weight_scaling_witness :
    ∃ o1 o2, conv5x5_nchw_u8_i8 (List.replicate 25 2) 1 5 5 (List.replicate 25 3) 1 [0]
        = some o1 ∧
      conv5x5_nchw_u8_i8 (List.replicate 25 2) 1 5 5
        ((List.replicate 25 3).map (fun z => 2 * z)) 1 [7] = some o2 ∧
      ∀ co oh ow, co < 1 → oh < 5 - 5 + 1 → ow < 5 - 5 + 1 →
        ∃ v, o1[(co * (5 - 5 + 1) + oh) * (5 - 5 + 1) + ow]? = some v ∧
          o2[(co * (5 - 5 + 1) + oh) * (5 - 5 + 1) + ow]? = some (2 * v) :=
  conv5x5_weight_scaling 1 1 5 5 (List.replicate 25 2) (List.replicate 25 3) [0] [7] 2
    (by decide) (by decide) (by decide) (by decide) (by decide) (by decide) (by decide)
    (by decide) (by decide)
    (fun co oh ow hco hoh how =>
      ⟨conv_sum_inI32 _ _ 1 5 5 1 co oh ow (by decide) (by decide) (by decide) (by decide)
          hco (by omega) (by omega) (by norm_num),
        conv_sum_inI32 _ _ 1 5 5 1 co oh ow (by decide) (by decide) (by decide) (by decide)
          hco (by omega) (by omega) (by norm_num)⟩)

/-! ## Stages of the pipeline -/

/-- For a `uint8` image and `int8` weights every buffer the pipeline leaves
is the corresponding stage of the specification, and the activation buffers
hold `uint8` values. -/
theorem forward_buffers_stages (x c1_w c2_w fc_w : List Int)
    (hx : x.length = 1 * 28 * 28) (hxU8 : AllU8 x)
    (h1 : c1_w.length = 4 * 1 * 25) (h1I8 : AllI8 c1_w)
    (h2 : c2_w.length = 12 * 4 * 25) (h2I8 : AllI8 c2_w)
    (h3 : fc_w.length = 10 * 192) (h3I8 : AllI8 fc_w) :
    (forward_buffers c1_w c2_w fc_w x).c1_acc = conv_ref x 1 28 28 c1_w 4 ∧
    (forward_buffers c1_w c2_w fc_w x).c1_feat
      = quant_ref (forward_buffers c1_w c2_w fc_w x).c1_acc ∧
    (forward_buffers c1_w c2_w fc_w x).p1
      = pool2_ref (forward_buffers c1_w c2_w fc_w x).c1_feat 4 24 24 ∧
    (forward_buffers c1_w c2_w fc_w x).c2_acc
      = conv_ref (forward_buffers c1_w c2_w fc_w x).p1 4 12 12 c2_w 12 ∧
    (forward_buffers c1_w c2_w fc_w x).c2_feat
      = quant_ref (forward_buffers c1_w c2_w fc_w x).c2_acc ∧
    (forward_buffers c1_w c2_w fc_w x).p2
      = pool2_ref (forward_buffers c1_w c2_w fc_w x).c2_feat 12 8 8 ∧
    (forward_buffers c1_w c2_w fc_w x).fc_in
      = flatten_ref (forward_buffers c1_w c2_w fc_w x).p2 ∧
    (forward_buffers c1_w c2_w fc_w x).logits_acc
      = fc_ref fc_w 10 192 (forward_buffers c1_w c2_w fc_w x).fc_in ∧
    AllU8 (forward_buffers c1_w c2_w fc_w x).c1_feat ∧
    AllU8 (forward_buffers c1_w c2_w fc_w x).p1 ∧
    AllU8 (forward_buffers c1_w c2_w fc_w x).c2_feat ∧
    AllU8 (forward_buffers c1_w c2_w fc_w x).p2 ∧
    AllU8 (forward_buffers c1_w c2_w fc_w x).fc_in := by
  obtain ⟨s1, s2, s3, s4, s5, s6, s7, s8⟩ := forward_buffers_sized c1_w c2_w fc_w x
  simp only [C1_OUT, C1_H, C1_W, C2_OUT, C2_H, C2_W, P1_H, P1_W, P2_H, P2_W, FC_IN, FC_OUT,
    Nat.reduceMul] at s1 s2 s3 s4 s5 s6 s7 s8
  have A1 : (forward_buffers c1_w c2_w fc_w x).c1_acc = conv_ref x 1 28 28 c1_w 4 :=
    (forward_buffers_c1_acc c1_w c2_w fc_w x).trans
      (conv_table_eq_ref x c1_w 1 28 28 4 (by decide) (by decide) hx h1 hxU8 h1I8
        (by norm_num) 2304 (by decide))
  have Q1 : (forward_buffers c1_w c2_w fc_w x).c1_feat
      = quant_ref (forward_buffers c1_w c2_w fc_w x).c1_acc :=
    (forward_buffers_c1_feat c1_w c2_w fc_w x).trans
      (quant_table_eq_ref _ 2304 s1.symm (fun v hv => by
        rw [A1] at hv
        have := (conv_ref_bound x c1_w 1 28 28 4 (by decide) (by decide) hx h1 hxU8 h1I8
          v hv).2
        norm_num at this
        omega))
  have U1 : AllU8 (forward_buffers c1_w c2_w fc_w x).c1_feat := Q1 ▸ quant_ref_allU8 _
  have P1 : (forward_buffers c1_w c2_w fc_w x).p1
      = pool2_ref (forward_buffers c1_w c2_w fc_w x).c1_feat 4 24 24 :=
    (forward_buffers_p1 c1_w c2_w fc_w x).trans
      (pool_table_eq_ref _ 4 24 24 12 12 (by decide) (by decide) (by rw [s4]) U1 576
        (by decide))
  have V1 : AllU8 (forward_buffers c1_w c2_w fc_w x).p1 := P1 ▸ pool2_ref_allU8 _ _ _ _ U1
  have A2 : (forward_buffers c1_w c2_w fc_w x).c2_acc
      = conv_ref (forward_buffers c1_w c2_w fc_w x).p1 4 12 12 c2_w 12 :=
    (forward_buffers_c2_acc c1_w c2_w fc_w x).trans
      (conv_table_eq_ref _ c2_w 4 12 12 12 (by decide) (by decide) (by rw [s5]) h2 V1 h2I8
        (by norm_num) 768 (by decide))
  have Q2 : (forward_buffers c1_w c2_w fc_w x).c2_feat
      = quant_ref (forward_buffers c1_w c2_w fc_w x).c2_acc :=
    (forward_buffers_c2_feat c1_w c2_w fc_w x).trans
      (quant_table_eq_ref _ 768 s2.symm (fun v hv => by
        rw [A2] at hv
        have := (conv_ref_bound _ c2_w 4 12 12 12 (by decide) (by decide) (by rw [s5]) h2 V1
          h2I8 v hv).2
        norm_num at this
        omega))
  have U2 : AllU8 (forward_buffers c1_w c2_w fc_w x).c2_feat := Q2 ▸ quant_ref_allU8 _
  have P2 : (forward_buffers c1_w c2_w fc_w x).p2
      = pool2_ref (forward_buffers c1_w c2_w fc_w x).c2_feat 12 8 8 :=
    (forward_buffers_p2 c1_w c2_w fc_w x).trans
      (pool_table_eq_ref _ 12 8 8 4 4 (by decide) (by decide) (by rw [s6]) U2 192
        (by decide))
  have V2 : AllU8 (forward_buffers c1_w c2_w fc_w x).p2 := P2 ▸ pool2_ref_allU8 _ _ _ _ U2
  have F : (forward_buffers c1_w c2_w fc_w x).fc_in
      = flatten_ref (forward_buffers c1_w c2_w fc_w x).p2 :=
    (forward_buffers_fc_in c1_w c2_w fc_w x).trans (flatten_table_eq_ref _)
  have W : AllU8 (forward_buffers c1_w c2_w fc_w x).fc_in := F ▸ flatten_ref_allU8 _ V2
  have L : (forward_buffers c1_w c2_w fc_w x).logits_acc
      = fc_ref fc_w 10 192 (forward_buffers c1_w c2_w fc_w x).fc_in :=
    (forward_buffers_logits_acc c1_w c2_w fc_w x).trans
      (fc_table_eq_ref fc_w _ 10 192 h3 s8 h3I8 W (by norm_num))
  exact ⟨A1, Q1, P1, A2, Q2, P2, F, L, U1, V1, U2, V2, W⟩

/-! ## Bounds of every access -/

theorem load_eq_none_iff (b : List Int) (i : Nat) : load b i = none ↔ b.length ≤ i := by
  unfold load
  exact List.getElem?_eq_none_iff

theorem store_eq_none_iff (b : List Int) (i : Nat) (v : Int) :
    store b i v = none ↔ b.length ≤ i := by
  unfold store
  by_cases h : i < b.length
  · simp [h]
  · simp [h]; omega

/-- C15: given an image of length 784, weight tensors of lengths 100, 1200
and 1920 and work buffers of their declared sizes, `run_forward_uint8`
returns a result: every read and write of the two convolutions, two
quantizations, two poolings, the flatten copy, the fully-connected product
and the argmax is bounds-checked in this embedding and a single access
outside its buffer would make the result `none`. The buffers it leaves have
their declared sizes. -/
theorem run_forward_uint8_in_bounds (st : Scratch) (c1_w c2_w fc_w x : List Int)
    (hst : st.Sized) (hx : x.length = 784) (h1 : c1_w.length = 100)
    (h2 : c2_w.length = 1200) (h3 : fc_w.length = 1920) :
    ∃ i st', run_forward_uint8 st c1_w c2_w fc_w x = some (i, st') ∧ st'.Sized := by
  obtain ⟨i, hrun, _⟩ := run_forward_uint8_eq st c1_w c2_w fc_w x hst hx h1 h2 h3
  exact ⟨i, _, hrun, forward_buffers_sized c1_w c2_w fc_w x⟩

/-- Instance of C15: a uniform image and constant weights on the
zero-initialised work buffers. -/
theorem run_forward_uint8_in_bounds_witness :
    ∃ i st', run_forward_uint8 Scratch.zero (List.replicate 100 3) (List.replicate 1200 (-2))
      (List.replicate 1920 5) (List.replicate 784 200) = some (i, st') ∧ st'.Sized :=
  run_forward_uint8_in_bounds Scratch.zero (List.replicate 100 3) (List.replicate 1200 (-2))
    (List.replicate 1920 5) (List.replicate 784 200) Scratch.zero_sized
    (List.length_replicate 784 200) (List.length_replicate 100 3)
    (List.length_replicate 1200 (-2)) (List.length_replicate 1920 5)

/-! ## The all-zero image -/

theorem map_range_eq_replicate (g : Nat → Int) (n : Nat) (h : ∀ j, j < n → g j = 0) :
    (List.range n).map g = List.replicate n 0 := by
  apply List.ext_getElem?
  intro j
  by_cases hj : j < n
  · rw [List.getElem?_map, List.getElem?_range hj, List.getElem?_replicate, if_pos hj]
    simp [h j hj]
  · rw [List.getElem?_eq_none (by simp; omega), List.getElem?_eq_none (by simp; omega)]

theorem getD_replicate_zero (n i : Nat) : (List.replicate n (0 : Int)).getD i 0 = 0 := by
  by_cases hi : i < n
  · simp [List.getD, List.getElem?_replicate, hi]
  · simp [List.getD, List.getElem?_replicate, hi]

theorem conv_ref_zero (n Cin H W Cout : Nat) (w : List Int) :
    conv_ref (List.replicate n 0) Cin H W w Cout
      = List.replicate (Cout * (H - KH + 1) * (W - KW + 1)) 0 := by
  unfold conv_ref
  apply map_range_eq_replicate
  intro j _
  simp [getD_replicate_zero]

theorem quant_ref_zero (n : Nat) : quant_ref (List.replicate n 0) = List.replicate n 0 := by
  unfold quant_ref
  simp

theorem pool2_ref_zero (n C H W : Nat) :
    pool2_ref (List.replicate n 0) C H W = List.replicate (C * (H / 2) * (W / 2)) 0 := by
  unfold pool2_ref
  apply map_range_eq_replicate
  intro j _
  simp [getD_replicate_zero]

theorem flatten_ref_zero (n : Nat) : flatten_ref (List.replicate n 0) = List.replicate 192 0 := by
  rw [← flatten_table_eq_ref]
  exact map_range_eq_replicate _ 192 (fun j _ => getD_replicate_zero n j)

theorem fc_ref_zero (n Cout Cin : Nat) (w : List Int) :
    fc_ref w Cout Cin (List.replicate n 0) = List.replicate Cout 0 := by
  unfold fc_ref
  apply map_range_eq_replicate
  intro j _
  simp [getD_replicate_zero]

/-- C18: for the all-zero 28x28 image and every choice of the three `int8`
weight tensors, `run_forward_uint8` returns class 0 and every conv1 and conv2
accumulator, every activation and every logit it computed is 0. -/
theorem run_forward_uint8_zero_image (st : Scratch) (c1_w c2_w fc_w : List Int)
    (hst : st.Sized)
    (h1 : c1_w.length = 4 * 1 * 25) (h1I8 : AllI8 c1_w)
    (h2 : c2_w.length = 12 * 4 * 25) (h2I8 : AllI8 c2_w)
    (h3 : fc_w.length = 10 * 192) (h3I8 : AllI8 fc_w) :
    ∃ st', run_forward_uint8 st c1_w c2_w fc_w (List.replicate 784 0) = some (0, st') ∧
      st'.c1_acc = List.replicate 2304 0 ∧ st'.c1_feat = List.replicate 2304 0 ∧
      st'.p1 = List.replicate 576 0 ∧
      st'.c2_acc = List.replicate 768 0 ∧ st'.c2_feat = List.replicate 768 0 ∧
      st'.p2 = List.replicate 192 0 ∧ st'.fc_in = List.replicate 192 0 ∧
      st'.logits_acc = List.replicate 10 0 := by
  have hx : (List.replicate 784 (0 : Int)).length = 1 * 28 * 28 := List.length_replicate 784 0
  obtain ⟨i, hrun, _, hi, _, hlt⟩ :=
    run_forward_uint8_eq st c1_w c2_w fc_w (List.replicate 784 0) hst hx h1 h2 h3
  obtain ⟨A1, Q1, P1, A2, Q2, P2, F, L, _⟩ :=
    forward_buffers_stages (List.replicate 784 0) c1_w c2_w fc_w hx
      (allU8_replicate 784 0 (by decide)) h1 h1I8 h2 h2I8 h3 h3I8
  rw [conv_ref_zero] at A1
  simp only [KH, KW, Nat.reduceMul, Nat.reduceSub, Nat.reduceAdd] at A1
  rw [A1, quant_ref_zero] at Q1
  rw [Q1, pool2_ref_zero] at P1
  simp only [Nat.reduceMul, Nat.reduceDiv] at P1
  rw [P1, conv_ref_zero] at A2
  simp only [KH, KW, Nat.reduceMul, Nat.reduceSub, Nat.reduceAdd] at A2
  rw [A2, quant_ref_zero] at Q2
  rw [Q2, pool2_ref_zero] at P2
  simp only [Nat.reduceMul, Nat.reduceDiv] at P2
  rw [P2, flatten_ref_zero] at F
  rw [F, fc_ref_zero] at L
  have hi0 : i = 0 := by
    by_contra hne
    have h := hlt 0 (by omega)
    rw [L, getD_replicate_zero, getD_replicate_zero] at h
    exact absurd h (lt_irrefl 0)
  rw [hi0] at hrun
  exact ⟨_, hrun, A1, Q1, P1, A2, Q2, P2, F, L⟩

/-- Instance of C18: constant weights on the zero-initialised work buffers. -/
theorem run_forward_uint8_zero_image_witness :
    ∃ st', run_forward_uint8 Scratch.zero (List.replicate 100 3) (List.replicate 1200 (-2))
        (List.replicate 1920 5) (List.replicate 784 0) = some (0, st') ∧
      st'.c1_acc = List.replicate 2304 0 ∧ st'.c1_feat = List.replicate 2304 0 ∧
      st'.p1 = List.replicate 576 0 ∧
      st'.c2_acc = List.replicate 768 0 ∧ st'.c2_feat = List.replicate 768 0 ∧
      st'.p2 = List.replicate 192 0 ∧ st'.fc_in = List.replicate 192 0 ∧
      st'.logits_acc = List.replicate 10 0 :=
  run_forward_uint8_zero_image Scratch.zero (List.replicate 100 3) (List.replicate 1200 (-2))
    (List.replicate 1920 5) Scratch.zero_sized
    (List.length_replicate 100 3) (allI8_replicate 100 3 (by decide))
    (List.length_replicate 1200 (-2)) (allI8_replicate 1200 (-2) (by decide))
    (List.length_replicate 1920 5) (allI8_replicate 1920 5 (by decide))

/-! ## Loops that returned -/

theorem foldlM_range_some_inv {σ : Type} (P : Nat → σ → Prop) (body : σ → Nat → Option σ)
    (lo : Nat) (s0 : σ) (h0 : P lo s0) :
    ∀ n s', (∀ i s t, lo ≤ i → i < lo + n → P i s → body s i = some t → P (i + 1) t) →
      (List.range' lo n).foldlM body s0 = some s' → P (lo + n) s' := by
  intro n
  induction n with
  | zero =>
    intro s' _ hrun
    simp at hrun
    subst hrun
    simpa using h0
  | succ n ih =>
    intro s' hstep hrun
    rw [List.range'_concat, List.foldlM_append] at hrun
    cases h1 : (List.range' lo n).foldlM body s0 with
    | none => rw [h1] at hrun; simp at hrun
    | some s1 =>
      rw [h1] at hrun
      have hP1 := ih s1 (fun i s t hlo hhi hP hb => hstep i s t hlo (by omega) hP hb) h1
      have hb : body s1 (lo + n) = some s' := by simpa using hrun
      have := hstep (lo + n) s1 s' (by omega) (by omega) hP1 hb
      simpa [Nat.add_assoc] using this

/-- Partial-correctness rule for `for (i = 0; i < n; ++i)`: an invariant kept
by every iteration that returns holds when the loop returns. -/
theorem forLoop_some_inv {σ : Type} (P : Nat → σ → Prop) {body : σ → Nat → Option σ}
    {n : Nat} {s0 s' : σ} (h0 : P 0 s0)
    (hstep : ∀ i s t, i < n → P i s → body s i = some t → P (i + 1) t)
    (hrun : forLoop n s0 body = some s') : P n s' := by
  have h := foldlM_range_some_inv P body 0 s0 h0 n s'
    (fun i s t _ hhi hP hb => hstep i s t (by omega) hP hb) hrun
  simpa using h

/-- Two loops whose bodies agree on the iterations they run are equal. -/
theorem forLoop_congr {σ : Type} (b1 b2 : σ → Nat → Option σ) (n : Nat) (s0 : σ)
    (h : ∀ i s, i < n → b1 s i = b2 s i) : forLoop n s0 b1 = forLoop n s0 b2 := by
  unfold forLoop forFrom
  have key : ∀ (l : List Nat) (s : σ), (∀ i ∈ l, i < n) → l.foldlM b1 s = l.foldlM b2 s := by
    intro l
    induction l with
    | nil => intro s _; rfl
    | cons a l ih =>
      intro s hl
      simp only [List.foldlM_cons]
      rw [h a s (hl a (List.mem_cons_self a l))]
      cases b2 s a with
      | none => rfl
      | some t => exact ih t (fun i hi => hl i (List.mem_cons_of_mem a hi))
  apply key
  intro i hi
  have := List.mem_range'_1.mp hi
  omega


/-! ## Independence of the channels in max-pooling -/

/-- A window scan returns as soon as each of its reads is in bounds. -/
theorem maxpool_window_of_bounds (inp : List Int) (H W k s c oh ow : Nat)
    (hb : ∀ kh kw, kh < k → kw < k →
      c * H * W + ((oh * s + kh) * W + (ow * s + kw)) < inp.length) :
    ∃ m, maxpool_window inp H W k s c oh ow = some m := by
  have h : ∃ m, maxpool_window inp H W k s c oh ow = some m ∧ True := by
    unfold maxpool_window
    refine forLoop_post (fun _ (_ : Int) => True) trivial ?_ (fun _ _ => trivial)
    intro kh m hkh _
    refine forLoop_post (fun _ (_ : Int) => True) trivial ?_ (fun _ _ => trivial)
    intro kw m2 hkw _
    rw [load_eq_getD inp _ (hb kh kw hkh hkw)]
    exact ⟨_, rfl, trivial⟩
  obtain ⟨m, hm, _⟩ := h
  exact ⟨m, hm⟩

/-- A window scan that returned made each of its reads in bounds. -/
theorem maxpool_window_bounds (inp : List Int) (H W k s c oh ow : Nat) (m : Int)
    (hrun : maxpool_window inp H W k s c oh ow = some m) :
    ∀ kh kw, kh < k → kw < k →
      c * H * W + ((oh * s + kh) * W + (ow * s + kw)) < inp.length := by
  unfold maxpool_window at hrun
  have h := forLoop_some_inv
    (fun kh (_ : Int) => ∀ kh' kw, kh' < kh → kw < k →
      c * H * W + ((oh * s + kh') * W + (ow * s + kw)) < inp.length)
    (fun _ _ h _ => absurd h (Nat.not_lt_zero _))
    (fun kh a t _ hP hb => by
      have h2 := forLoop_some_inv
        (fun kw (_ : Int) => ∀ kw', kw' < kw →
          c * H * W + ((oh * s + kh) * W + (ow * s + kw')) < inp.length)
        (fun _ h => absurd h (Nat.not_lt_zero _))
        (fun kw a2 t2 _ hP2 hb2 => by
          intro kw' hkw'
          by_cases e : kw' = kw
          · subst e
            by_contra hge
            have hn : load inp (c * H * W + ((oh * s + kh) * W + (ow * s + kw'))) = none :=
              (load_eq_none_iff _ _).mpr (Nat.le_of_not_lt hge)
            rw [hn] at hb2
            exact absurd hb2 (by simp)
          · exact hP2 kw' (by omega))
        hb
      intro kh' kw hkh' hkw
      by_cases e : kh' = kh
      · subst e; exact h2 kw hkw
      · exact hP kh' kw (by omega) hkw)
    hrun
  exact h

/-- Window scans over two inputs that agree on the cells read are equal. -/
theorem maxpool_window_congr (inp1 inp2 : List Int) (H W k s c oh ow : Nat)
    (h : ∀ kh kw, kh < k → kw < k →
      load inp1 (c * H * W + ((oh * s + kh) * W + (ow * s + kw)))
        = load inp2 (c * H * W + ((oh * s + kh) * W + (ow * s + kw)))) :
    maxpool_window inp1 H W k s c oh ow = maxpool_window inp2 H W k s c oh ow := by
  unfold maxpool_window
  apply forLoop_congr
  intro kh m hkh
  apply forLoop_congr
  intro kw m2 hkw
  rw [h kh kw hkh hkw]

/-- Max-pooling fills its output as soon as every window scan returns. -/
theorem maxpool_fill_of_windows (inp out : List Int) (C H W k s OH OW : Nat)
    (hwin : ∀ c oh ow, c < C → oh < OH → ow < OW →
      ∃ m, maxpool_window inp H W k s c oh ow = some m)
    (hout : C * OH * OW ≤ out.length) :
    ∃ out', maxpool_nchw_valid_u8 inp C H W k s out OH OW = some out' ∧
      Filled (pool_cell inp H W k s OH OW) out out' (C * OH * OW) := by
  unfold maxpool_nchw_valid_u8
  refine forLoop_post (fun c o => Filled (pool_cell inp H W k s OH OW) out o (c * OH * OW))
    ((Filled.refl _ _).cast (by simp)) ?_ (fun _ h => h)
  intro c o hc hF
  refine forLoop_post
    (fun oh o => Filled (pool_cell inp H W k s OH OW) out o ((c * OH + oh) * OW))
    (hF.cast (by ring)) ?_ (fun _ h => h.cast (by ring))
  intro oh o2 hoh hF2
  refine forLoop_post
    (fun ow o => Filled (pool_cell inp H W k s OH OW) out o ((c * OH + oh) * OW + ow))
    hF2 ?_ (fun _ h => h.cast (by ring))
  intro ow o4 how hF4
  obtain ⟨m, hm⟩ := hwin c oh ow hc hoh how
  have e : c * OH * OW + (oh * OW + ow) = (c * OH + oh) * OW + ow := by ring
  rw [hm, e]
  have hlt : (c * OH + oh) * OW + ow < C * OH * OW := idx2_lt (idx2_lt hc hoh) how
  refine store_filled _ out o4 _ _ hF4 (by omega) ?_
  unfold pool_cell
  rw [idx2_mod how, idx2_div how, idx2_mod hoh, idx2_div hoh, hm]
  rfl

/-- A max-pooling call that returned ran every window scan to its end. -/
theorem maxpool_windows_of_some (inp out out' : List Int) (C H W k s OH OW : Nat)
    (hrun : maxpool_nchw_valid_u8 inp C H W k s out OH OW = some out') :
    ∀ c oh ow, c < C → oh < OH → ow < OW →
      ∃ m, maxpool_window inp H W k s c oh ow = some m := by
  unfold maxpool_nchw_valid_u8 at hrun
  have h := forLoop_some_inv
    (fun c (_ : List Int) => ∀ c' oh ow, c' < c → oh < OH → ow < OW →
      ∃ m, maxpool_window inp H W k s c' oh ow = some m)
    (fun _ _ _ h => absurd h (Nat.not_lt_zero _))
    (fun c a t _ hP hb => by
      have h2 := forLoop_some_inv
        (fun oh (_ : List Int) => ∀ oh' ow, oh' < oh → ow < OW →
          ∃ m, maxpool_window inp H W k s c oh' ow = some m)
        (fun _ _ h => absurd h (Nat.not_lt_zero _))
        (fun oh a2 t2 _ hP2 hb2 => by
          have h3 := forLoop_some_inv
            (fun ow (_ : List Int) => ∀ ow', ow' < ow →
              ∃ m, maxpool_window inp H W k s c oh ow' = some m)
            (fun _ h => absurd h (Nat.not_lt_zero _))
            (fun ow a3 t3 _ hP3 hb3 => by
              intro ow' how'
              by_cases e : ow' = ow
              · subst e
                cases hw : maxpool_window inp H W k s c oh ow' with
                | none => rw [hw] at hb3; exact absurd hb3 (by simp)
                | some m => exact ⟨m, rfl⟩
              · exact hP3 ow' (by omega))
            hb2
          intro oh' ow hoh' how
          by_cases e : oh' = oh
          · subst e; exact h3 ow how
          · exact hP2 oh' ow (by omega) how)
        hb
      intro c' oh ow hc' hoh how
      by_cases e : c' = c
      · subst e; exact h2 oh ow hoh how
      · exact hP c' oh ow (by omega) hoh how)
    hrun
  exact h


/-- C17: `maxpool_nchw_valid_u8` treats channels independently. For every
shape and every two `uint8` inputs that agree on all `H*W` elements of
channel `c`: whenever the call on the first input returns, so does the call
on the second, and the `OH*OW` outputs of channel `c` are equal, whatever the
other channels contain and whatever the output buffers held before. With
valid windows (`(OH-1)*s + k ≤ H`, `(OW-1)*s + k ≤ W`) the call does
return. -/
theorem maxpool_channel_independent (C H W k s OH OW c : Nat)
    (inp1 inp2 out1 out2 : List Int) (hc : c < C)
    (h1 : inp1.length = C * H * W) (h2 : inp2.length = C * H * W)
    (_u1 : AllU8 inp1) (_u2 : AllU8 inp2)
    (hout1 : C * OH * OW ≤ out1.length) (hout2 : C * OH * OW ≤ out2.length)
    (hagree : ∀ p, p < H * W → inp1.getD (c * H * W + p) 0 = inp2.getD (c * H * W + p) 0) :
    ((((OH : Int) - 1) * s + k ≤ H ∧ ((OW : Int) - 1) * s + k ≤ W) →
      ∃ o1, maxpool_nchw_valid_u8 inp1 C H W k s out1 OH OW = some o1) ∧
    ∀ o1, maxpool_nchw_valid_u8 inp1 C H W k s out1 OH OW = some o1 →
      ∃ o2, maxpool_nchw_valid_u8 inp2 C H W k s out2 OH OW = some o2 ∧
        ∀ oh ow, oh < OH → ow < OW →
          o1[c * OH * OW + oh * OW + ow]? = o2[c * OH * OW + oh * OW + ow]? := by
  constructor
  · rintro ⟨hH, hW⟩
    obtain ⟨o1, hrun, _⟩ := maxpool_fill inp1 out1 C H W k s OH OW h1
      (fun oh h => window_fits hH h) (fun ow h => window_fits hW h) hout1
    exact ⟨o1, hrun⟩
  · intro o1 hrun
    have hw1 := maxpool_windows_of_some inp1 out1 o1 C H W k s OH OW hrun
    have hoff : ∀ oh ow kh kw, oh < OH → ow < OW → kh < k → kw < k →
        (oh * s + kh) * W + (ow * s + kw) < H * W := by
      intro oh ow kh kw hoh how hkh hkw
      obtain ⟨D, hD⟩ : ∃ D, C = D + 1 := ⟨C - 1, by omega⟩
      obtain ⟨m, hm⟩ := hw1 D oh ow (by omega) hoh how
      have hb := maxpool_window_bounds inp1 H W k s D oh ow m hm kh kw hkh hkw
      have e : C * H * W = D * H * W + H * W := by rw [hD]; ring
      omega
    have hidx : ∀ c' oh ow kh kw, c' < C → oh < OH → ow < OW → kh < k → kw < k →
        c' * H * W + ((oh * s + kh) * W + (ow * s + kw)) < C * H * W := by
      intro c' oh ow kh kw hc' hoh how hkh hkw
      have h := idx2_lt hc' (hoff oh ow kh kw hoh how hkh hkw)
      have e1 : c' * H * W = c' * (H * W) := Nat.mul_assoc _ _ _
      have e2 : C * H * W = C * (H * W) := Nat.mul_assoc _ _ _
      omega
    have hw2 : ∀ c' oh ow, c' < C → oh < OH → ow < OW →
        ∃ m, maxpool_window inp2 H W k s c' oh ow = some m :=
      fun c' oh ow hc' hoh how => maxpool_window_of_bounds inp2 H W k s c' oh ow
        (fun kh kw hkh hkw => h2 ▸ hidx c' oh ow kh kw hc' hoh how hkh hkw)
    obtain ⟨o1', r1, F1⟩ := maxpool_fill_of_windows inp1 out1 C H W k s OH OW hw1 hout1
    obtain ⟨o2, r2, F2⟩ := maxpool_fill_of_windows inp2 out2 C H W k s OH OW hw2 hout2
    have eo : o1' = o1 := Option.some.inj (r1.symm.trans hrun)
    subst eo
    refine ⟨o2, r2, ?_⟩
    intro oh ow hoh how
    have e : c * OH * OW + oh * OW + ow = (c * OH + oh) * OW + ow := by ring
    have hlt : (c * OH + oh) * OW + ow < C * OH * OW := idx2_lt (idx2_lt hc hoh) how
    rw [e, F1.get_lt hlt, F2.get_lt hlt]
    congr 1
    unfold pool_cell
    rw [idx2_mod how, idx2_div how, idx2_mod hoh, idx2_div hoh]
    congr 1
    apply maxpool_window_congr
    intro kh kw hkh hkw
    have hi := hidx c oh ow kh kw hc hoh how hkh hkw
    rw [load_eq_getD inp1 _ (h1 ▸ hi), load_eq_getD inp2 _ (h2 ▸ hi),
      hagree _ (hoff oh ow kh kw hoh how hkh hkw)]

/-- Instance of C17: two 2-channel 2x2 inputs that differ in channel 1 only,
pooled with a 2x2 window; channel 0 is compared. -/
theorem maxpool_channel_independent_witness :
    ((((1 : Nat) : Int) - 1) * (2 : Nat) + (2 : Nat) ≤ (2 : Nat) ∧
        (((1 : Nat) : Int) - 1) * (2 : Nat) + (2 : Nat) ≤ (2 : Nat) →
      ∃ o1, maxpool_nchw_valid_u8 [1, 2, 3, 4, 5, 6, 7, 8] 2 2 2 2 2 [0, 0] 1 1 = some o1) ∧
    ∀ o1, maxpool_nchw_valid_u8 [1, 2, 3, 4, 5, 6, 7, 8] 2 2 2 2 2 [0, 0] 1 1 = some o1 →
      ∃ o2, maxpool_nchw_valid_u8 [1, 2, 3, 4, 9, 9, 0, 0] 2 2 2 2 2 [7, 7] 1 1 = some o2 ∧
        ∀ oh ow, oh < 1 → ow < 1 →
          o1[0 * 1 * 1 + oh * 1 + ow]? = o2[0 * 1 * 1 + oh * 1 + ow]? :=
  maxpool_channel_independent 2 2 2 2 2 1 1 0 [1, 2, 3, 4, 5, 6, 7, 8] [1, 2, 3, 4, 9, 9, 0, 0]
    [0, 0] [7, 7] (by decide) (by decide) (by decide) (by decide) (by decide) (by decide)
    (by decide) (by decide)

/-! ## No overflow in the fixed shapes -/

/-- Stopping the accumulation after all channels gives the accumulator of
the kernel. -/
theorem conv5x5_acc_upto_all (inp : List Int) (Cin H W : Nat) (w : List Int)
    (co oh ow : Nat) :
    conv5x5_acc_upto inp Cin H W w co oh ow Cin 0 0 = conv5x5_acc inp Cin H W w co oh ow := by
  unfold conv5x5_acc_upto conv5x5_acc
  cases h : (forLoop Cin (0 : Int) fun acc ci' =>
    forLoop KH acc fun acc kh' =>
      forLoop KW acc (conv5x5_tap inp Cin H W w co oh ow ci' kh')) with
  | none =>
    have h' : (forLoop Cin (0 : Int) fun acc ci => forLoop KH acc fun acc kh =>
        forLoop KW acc fun acc kw => do
          let x ← load inp (ci * H * W + ((oh + kh) * W + (ow + kw)))
          let c ← load w (co * (Cin * KH * KW) + ci * (KH * KW) + (kh * KW + kw))
          pure (wrap32 (acc + x * c))) = none := h
    rw [h']
    rfl
  | some a =>
    have h' : (forLoop Cin (0 : Int) fun acc ci => forLoop KH acc fun acc kh =>
        forLoop KW acc fun acc kw => do
          let x ← load inp (ci * H * W + ((oh + kh) * W + (ow + kw)))
          let c ← load w (co * (Cin * KH * KW) + ci * (KH * KW) + (kh * KW + kw))
          pure (wrap32 (acc + x * c))) = some a := h
    rw [h']
    rfl

/-- Stopping the accumulation after all terms gives the accumulator of the
kernel. -/
theorem fc_row_upto_all (w : List Int) (Cin : Nat) (x : List Int) (o : Nat) :
    fc_row_upto w Cin x o Cin = fc_row w Cin x o := rfl


/-- One tap of the convolution on an accumulator of magnitude at most `M`,
with `M + 255 * 128` in the `int32_t` range: both reads are in bounds, the
product has magnitude at most `255 * 128` and the add does not wrap. -/
theorem conv5x5_tap_fits (inp w : List Int) (Cin H W Cout co oh ow ci kh kw : Nat)
    (acc M : Int)
    (hin : inp.length = Cin * H * W) (hw : w.length = Cout * Cin * 25)
    (hinU8 : AllU8 inp) (hwI8 : AllI8 w)
    (hco : co < Cout) (hoh : oh + 5 ≤ H) (how : ow + 5 ≤ W)
    (hci : ci < Cin) (hkh : kh < 5) (hkw : kw < 5)
    (hacc : -M ≤ acc ∧ acc ≤ M) (hM : M + 32640 ≤ 2147483647) :
    ∃ a b, load inp (ci * H * W + ((oh + kh) * W + (ow + kw))) = some a ∧
      load w (co * (Cin * KH * KW) + ci * (KH * KW) + (kh * KW + kw)) = some b ∧
      (-32640 ≤ a * b ∧ a * b ≤ 32640) ∧
      conv5x5_tap inp Cin H W w co oh ow ci kh acc kw = some (acc + a * b) := by
  have e1 : ci * H * W + ((oh + kh) * W + (ow + kw))
      = ci * H * W + (oh + kh) * W + (ow + kw) := by omega
  have e2 : co * (Cin * KH * KW) + ci * (KH * KW) + (kh * KW + kw)
      = co * Cin * 25 + ci * 25 + kh * 5 + kw := by
    simp only [KH, KW]; ring
  have i1 : ci * H * W + ((oh + kh) * W + (ow + kw)) < inp.length := by
    rw [e1, hin]; exact conv_in_idx hci hoh how hkh hkw
  have i2 : co * (Cin * KH * KW) + ci * (KH * KW) + (kh * KW + kw) < w.length := by
    rw [e2, hw]; exact conv_w_idx hco hci hkh hkw
  have l1 := load_eq_getD inp _ i1
  have l2 := load_eq_getD w _ i2
  have hb := mul_u8_i8_bound _ _ (getD_inU8 inp hinU8 _ i1) (getD_inI8 w hwI8 _ i2)
  refine ⟨_, _, l1, l2, hb, ?_⟩
  unfold conv5x5_tap
  rw [l1, l2]
  show some (wrap32 _) = _
  rw [wrap32_of_inI32 _ ⟨by linarith [hb.1, hacc.1], by linarith [hb.2, hacc.2]⟩]

/-- The taps before `n` of one kernel row add at most `n * 255 * 128` to the
magnitude of the accumulator, without wrapping. -/
theorem conv5x5_taps_bound (inp w : List Int) (Cin H W Cout co oh ow ci kh n : Nat)
    (acc M : Int)
    (hin : inp.length = Cin * H * W) (hw : w.length = Cout * Cin * 25)
    (hinU8 : AllU8 inp) (hwI8 : AllI8 w)
    (hco : co < Cout) (hoh : oh + 5 ≤ H) (how : ow + 5 ≤ W)
    (hci : ci < Cin) (hkh : kh < 5) (hn : n ≤ 5)
    (hacc : -M ≤ acc ∧ acc ≤ M) (hM : M + n * 32640 ≤ 2147483647) :
    ∃ acc', forLoop n acc (conv5x5_tap inp Cin H W w co oh ow ci kh) = some acc' ∧
      (-(M + n * 32640) ≤ acc' ∧ acc' ≤ M + n * 32640) := by
  refine forLoop_post
    (fun i (a : Int) => -(M + i * 32640) ≤ a ∧ a ≤ M + i * 32640)
    (by simpa using hacc) ?_ (fun _ h => h)
  intro i a hi hP
  obtain ⟨x, c, _, _, hb, ht⟩ := conv5x5_tap_fits inp w Cin H W Cout co oh ow ci kh i a
    (M + i * 32640) hin hw hinU8 hwI8 hco hoh how hci hkh (by omega) hP (by omega)
  refine ⟨_, ht, ?_⟩
  push_cast
  constructor <;> linarith [hb.1, hb.2, hP.1, hP.2]

/-- The rows before `n` of one kernel channel add at most `n * 5 * 255 * 128`
to the magnitude of the accumulator, without wrapping. -/
theorem conv5x5_rows_bound (inp w : List Int) (Cin H W Cout co oh ow ci n : Nat)
    (acc M : Int)
    (hin : inp.length = Cin * H * W) (hw : w.length = Cout * Cin * 25)
    (hinU8 : AllU8 inp) (hwI8 : AllI8 w)
    (hco : co < Cout) (hoh : oh + 5 ≤ H) (how : ow + 5 ≤ W)
    (hci : ci < Cin) (hn : n ≤ 5)
    (hacc : -M ≤ acc ∧ acc ≤ M) (hM : M + n * 163200 ≤ 2147483647) :
    ∃ acc', (forLoop n acc fun acc kh' =>
        forLoop KW acc (conv5x5_tap inp Cin H W w co oh ow ci kh')) = some acc' ∧
      (-(M + n * 163200) ≤ acc' ∧ acc' ≤ M + n * 163200) := by
  refine forLoop_post
    (fun i (a : Int) => -(M + i * 163200) ≤ a ∧ a ≤ M + i * 163200)
    (by simpa using hacc) ?_ (fun _ h => h)
  intro i a hi hP
  obtain ⟨a', hr, hb⟩ := conv5x5_taps_bound inp w Cin H W Cout co oh ow ci i 5 a
    (M + i * 163200) hin hw hinU8 hwI8 hco hoh how hci (by omega) (le_refl 5) hP
    (by push_cast; omega)
  refine ⟨a', hr, ?_⟩
  push_cast at hb ⊢
  constructor <;> linarith [hb.1, hb.2]

/-- The channels before `n` add at most `n * 25 * 255 * 128` to the
magnitude of the accumulator, without wrapping. -/
theorem conv5x5_chans_bound (inp w : List Int) (Cin H W Cout co oh ow n : Nat)
    (hin : inp.length = Cin * H * W) (hw : w.length = Cout * Cin * 25)
    (hinU8 : AllU8 inp) (hwI8 : AllI8 w)
    (hco : co < Cout) (hoh : oh + 5 ≤ H) (how : ow + 5 ≤ W)
    (hn : n ≤ Cin) (hM : (n : Int) * 816000 ≤ 2147483647) :
    ∃ acc', (forLoop n (0 : Int) fun acc ci' =>
        forLoop KH acc fun acc kh' =>
          forLoop KW acc (conv5x5_tap inp Cin H W w co oh ow ci' kh')) = some acc' ∧
      (-((n : Int) * 816000) ≤ acc' ∧ acc' ≤ n * 816000) := by
  refine forLoop_post
    (fun i (a : Int) => -((i : Int) * 816000) ≤ a ∧ a ≤ i * 816000)
    (by simp) ?_ (fun _ h => h)
  intro i a hi hP
  obtain ⟨a', hr, hb⟩ := conv5x5_rows_bound inp w Cin H W Cout co oh ow i 5 a
    ((i : Int) * 816000) hin hw hinU8 hwI8 hco hoh how (by omega) (le_refl 5) hP
    (by push_cast; omega)
  refine ⟨a', hr, ?_⟩
  push_cast at hb ⊢
  constructor <;> linarith [hb.1, hb.2]


/-- For `Cin * 25 * 255 * 128` in the `int32_t` range no add of the
convolution overflows. -/
theorem convAddsFit_of_fit (inp w : List Int) (Cin H W Cout : Nat)
    (hH : 5 ≤ H) (hW : 5 ≤ W)
    (hin : inp.length = Cin * H * W) (hw : w.length = Cout * Cin * 25)
    (hinU8 : AllU8 inp) (hwI8 : AllI8 w) (hfit : (Cin : Int) * 816000 ≤ 2147483647) :
    ConvAddsFit inp Cin H W w Cout := by
  intro co oh ow ci kh kw hco hoh how hci hkh hkw
  simp only [KH, KW] at hoh how hkh hkw
  have hoh5 : oh + 5 ≤ H := by omega
  have how5 : ow + 5 ≤ W := by omega
  obtain ⟨a, ra, ba⟩ := conv5x5_chans_bound inp w Cin H W Cout co oh ow ci hin hw hinU8 hwI8
    hco hoh5 how5 (by omega) (by omega)
  obtain ⟨b, rb, bb⟩ := conv5x5_rows_bound inp w Cin H W Cout co oh ow ci kh a
    ((ci : Int) * 816000) hin hw hinU8 hwI8 hco hoh5 how5 hci (by omega) ba (by omega)
  obtain ⟨c, rc, bc⟩ := conv5x5_taps_bound inp w Cin H W Cout co oh ow ci kh kw b
    ((ci : Int) * 816000 + kh * 163200) hin hw hinU8 hwI8 hco hoh5 how5 hci hkh (by omega) bb
    (by omega)
  obtain ⟨x, y, lx, ly, hb, _⟩ := conv5x5_tap_fits inp w Cin H W Cout co oh ow ci kh kw c
    ((ci : Int) * 816000 + kh * 163200 + kw * 32640) hin hw hinU8 hwI8 hco hoh5 how5 hci hkh
    hkw bc (by omega)
  refine ⟨c, x, y, ?_, lx, ly, ⟨by linarith [hb.1], by linarith [hb.2]⟩,
    ⟨by linarith [hb.1, bc.1], by linarith [hb.2, bc.2]⟩⟩
  unfold conv5x5_acc_upto
  rw [ra, bind_some_eq, rb, bind_some_eq, rc]

/-- The terms before `n` of one output row add at most `n * 255 * 128` to the
magnitude of the accumulator, without wrapping. -/
theorem fc_terms_bound (w x : List Int) (Cout Cin o n : Nat)
    (hw : w.length = Cout * Cin) (hx : x.length = Cin) (hwI8 : AllI8 w) (hxU8 : AllU8 x)
    (ho : o < Cout) (hn : n ≤ Cin) (hM : (n : Int) * 32640 ≤ 2147483647) :
    ∃ acc', fc_row_upto w Cin x o n = some acc' ∧
      (-((n : Int) * 32640) ≤ acc' ∧ acc' ≤ n * 32640) := by
  unfold fc_row_upto
  refine forLoop_post
    (fun i (a : Int) => -((i : Int) * 32640) ≤ a ∧ a ≤ i * 32640)
    (by simp) ?_ (fun _ h => h)
  intro i a hi hP
  have i1 : o * Cin + i < w.length := by rw [hw]; exact idx2_lt ho (by omega)
  have i2 : i < x.length := by omega
  have hb := mul_u8_i8_bound _ _ (getD_inU8 x hxU8 i i2) (getD_inI8 w hwI8 _ i1)
  rw [mul_comm] at hb
  rw [load_eq_getD w _ i1, load_eq_getD x _ i2]
  refine ⟨wrap32 (a + w.getD (o * Cin + i) 0 * x.getD i 0), rfl, ?_⟩
  rw [wrap32_of_inI32 _ ⟨by linarith [hb.1, hP.1], by linarith [hb.2, hP.2]⟩]
  push_cast
  constructor <;> linarith [hb.1, hb.2, hP.1, hP.2]

/-- For `Cin * 255 * 128` in the `int32_t` range no add of the
fully-connected layer overflows. -/
theorem fcAddsFit_of_fit (w x : List Int) (Cout Cin : Nat)
    (hw : w.length = Cout * Cin) (hx : x.length = Cin) (hwI8 : AllI8 w) (hxU8 : AllU8 x)
    (hfit : (Cin : Int) * 32640 ≤ 2147483647) : FcAddsFit w Cout Cin x := by
  intro o i ho hi
  obtain ⟨acc, ra, ba⟩ := fc_terms_bound w x Cout Cin o i hw hx hwI8 hxU8 ho (by omega)
    (by omega)
  have i1 : o * Cin + i < w.length := by rw [hw]; exact idx2_lt ho hi
  have i2 : i < x.length := by omega
  have hb := mul_u8_i8_bound _ _ (getD_inU8 x hxU8 i i2) (getD_inI8 w hwI8 _ i1)
  rw [mul_comm] at hb
  exact ⟨acc, _, _, ra, load_eq_getD w _ i1, load_eq_getD x _ i2,
    ⟨by linarith [hb.1], by linarith [hb.2]⟩,
    ⟨by linarith [hb.1, ba.1], by linarith [hb.2, ba.2]⟩⟩

/-- C11: in the three fixed layer shapes (conv1 with `Cin = 1`, conv2 with
`Cin = 4`, both 5x5; fc with `Cin = 192`), for every `uint8` image and all
`int8` weights (-128 included), no add of an accumulation loop of
`run_forward_uint8` leaves the `int32_t` range, and neither does the rounding
add `v + 64` on any conv1 or conv2 accumulator; so the accumulators and
activations the code computes with 32-bit wrap-around are those of exact
integer arithmetic. -/
theorem run_forward_uint8_no_overflow (x c1_w c2_w fc_w : List Int)
    (hx : x.length = 1 * 28 * 28) (hxU8 : AllU8 x)
    (h1 : c1_w.length = 4 * 1 * 25) (h1I8 : AllI8 c1_w)
    (h2 : c2_w.length = 12 * 4 * 25) (h2I8 : AllI8 c2_w)
    (h3 : fc_w.length = 10 * 192) (h3I8 : AllI8 fc_w) :
    ConvAddsFit x 1 28 28 c1_w 4 ∧
    ConvAddsFit (forward_buffers c1_w c2_w fc_w x).p1 4 12 12 c2_w 12 ∧
    FcAddsFit fc_w 10 192 (forward_buffers c1_w c2_w fc_w x).fc_in ∧
    (∀ v ∈ (forward_buffers c1_w c2_w fc_w x).c1_acc, InI32 (v + 64)) ∧
    (∀ v ∈ (forward_buffers c1_w c2_w fc_w x).c2_acc, InI32 (v + 64)) ∧
    (forward_buffers c1_w c2_w fc_w x).c1_acc = conv_ref x 1 28 28 c1_w 4 ∧
    (forward_buffers c1_w c2_w fc_w x).c1_feat
      = quant_ref (forward_buffers c1_w c2_w fc_w x).c1_acc ∧
    (forward_buffers c1_w c2_w fc_w x).c2_acc
      = conv_ref (forward_buffers c1_w c2_w fc_w x).p1 4 12 12 c2_w 12 ∧
    (forward_buffers c1_w c2_w fc_w x).c2_feat
      = quant_ref (forward_buffers c1_w c2_w fc_w x).c2_acc ∧
    (forward_buffers c1_w c2_w fc_w x).logits_acc
      = fc_ref fc_w 10 192 (forward_buffers c1_w c2_w fc_w x).fc_in := by
  obtain ⟨s1, s2, s3, s4, s5, s6, s7, s8⟩ := forward_buffers_sized c1_w c2_w fc_w x
  simp only [C1_OUT, C1_H, C1_W, C2_OUT, C2_H, C2_W, P1_H, P1_W, P2_H, P2_W, FC_IN, FC_OUT,
    Nat.reduceMul] at s1 s2 s3 s4 s5 s6 s7 s8
  obtain ⟨A1, Q1, _, A2, Q2, _, _, L, _, V1, _, _, W⟩ :=
    forward_buffers_stages x c1_w c2_w fc_w hx hxU8 h1 h1I8 h2 h2I8 h3 h3I8
  refine ⟨?_, ?_, ?_, ?_, ?_, A1, Q1, A2, Q2, L⟩
  · exact convAddsFit_of_fit x c1_w 1 28 28 4 (by decide) (by decide) hx h1 hxU8 h1I8
      (by norm_num)
  · exact convAddsFit_of_fit _ c2_w 4 12 12 12 (by decide) (by decide) (by rw [s5]) h2 V1 h2I8
      (by norm_num)
  · exact fcAddsFit_of_fit fc_w _ 10 192 h3 s8 h3I8 W (by norm_num)
  · intro v hv
    rw [A1] at hv
    have hb := conv_ref_bound x c1_w 1 28 28 4 (by decide) (by decide) hx h1 hxU8 h1I8 v hv
    norm_num at hb
    unfold InI32
    constructor <;> omega
  · intro v hv
    rw [A2] at hv
    have hb := conv_ref_bound _ c2_w 4 12 12 12 (by decide) (by decide) (by rw [s5]) h2 V1
      h2I8 v hv
    norm_num at hb
    unfold InI32
    constructor <;> omega

/-- Instance of C11: a uniform grey image against constant weights, the
conv1 and fc weights at the extremes of `int8_t`. -/
theorem run_forward_uint8_no_overflow_witness :
    ConvAddsFit (List.replicate 784 255) 1 28 28 (List.replicate 100 (-128)) 4 ∧
    ConvAddsFit (forward_buffers (List.replicate 100 (-128)) (List.replicate 1200 127)
      (List.replicate 1920 (-128)) (List.replicate 784 255)).p1 4 12 12
      (List.replicate 1200 127) 12 ∧
    FcAddsFit (List.replicate 1920 (-128)) 10 192
      (forward_buffers (List.replicate 100 (-128)) (List.replicate 1200 127)
        (List.replicate 1920 (-128)) (List.replicate 784 255)).fc_in ∧
    (∀ v ∈ (forward_buffers (List.replicate 100 (-128)) (List.replicate 1200 127)
      (List.replicate 1920 (-128)) (List.replicate 784 255)).c1_acc, InI32 (v + 64)) ∧
    (∀ v ∈ (forward_buffers (List.replicate 100 (-128)) (List.replicate 1200 127)
      (List.replicate 1920 (-128)) (List.replicate 784 255)).c2_acc, InI32 (v + 64)) ∧
    (forward_buffers (List.replicate 100 (-128)) (List.replicate 1200 127)
      (List.replicate 1920 (-128)) (List.replicate 784 255)).c1_acc
      = conv_ref (List.replicate 784 255) 1 28 28 (List.replicate 100 (-128)) 4 ∧
    (forward_buffers (List.replicate 100 (-128)) (List.replicate 1200 127)
      (List.replicate 1920 (-128)) (List.replicate 784 255)).c1_feat
      = quant_ref (forward_buffers (List.replicate 100 (-128)) (List.replicate 1200 127)
        (List.replicate 1920 (-128)) (List.replicate 784 255)).c1_acc ∧
    (forward_buffers (List.replicate 100 (-128)) (List.replicate 1200 127)
      (List.replicate 1920 (-128)) (List.replicate 784 255)).c2_acc
      = conv_ref (forward_buffers (List.replicate 100 (-128)) (List.replicate 1200 127)
        (List.replicate 1920 (-128)) (List.replicate 784 255)).p1 4 12 12
        (List.replicate 1200 127) 12 ∧
    (forward_buffers (List.replicate 100 (-128)) (List.replicate 1200 127)
      (List.replicate 1920 (-128)) (List.replicate 784 255)).c2_feat
      = quant_ref (forward_buffers (List.replicate 100 (-128)) (List.replicate 1200 127)
        (List.replicate 1920 (-128)) (List.replicate 784 255)).c2_acc ∧
    (forward_buffers (List.replicate 100 (-128)) (List.replicate 1200 127)
      (List.replicate 1920 (-128)) (List.replicate 784 255)).logits_acc
      = fc_ref (List.replicate 1920 (-128)) 10 192
        (forward_buffers (List.replicate 100 (-128)) (List.replicate 1200 127)
          (List.replicate 1920 (-128)) (List.replicate 784 255)).fc_in :=
  run_forward_uint8_no_overflow (List.replicate 784 255) (List.replicate 100 (-128))
    (List.replicate 1200 127) (List.replicate 1920 (-128))
    (List.length_replicate 784 255) (allU8_replicate 784 255 (by decide))
    (List.length_replicate 100 (-128)) (allI8_replicate 100 (-128) (by decide))
    (List.length_replicate 1200 127) (allI8_replicate 1200 127 (by decide))
    (List.length_replicate 1920 (-128)) (allI8_replicate 1920 (-128) (by decide))

/-! ## Evaluation harness -/

theorem image_at_length (images : List Int) (i : Nat)
    (himg : images.length = N_TEST * IMG_SIZE) (hi : i < N_TEST) :
    (image_at images i).length = 784 := by
  unfold image_at
  simp only [N_TEST, IMG_SIZE, IN_C, IN_H, IN_W, Nat.reduceMul] at himg hi ⊢
  rw [List.length_take, List.length_drop, himg]
  omega

theorem image_at_allU8 (images : List Int) (i : Nat) (hU8 : AllU8 images) :
    AllU8 (image_at images i) := by
  intro z hz
  unfold image_at at hz
  exact hU8 z (List.mem_of_mem_drop (List.mem_of_mem_take hz))

theorem countP_range_succ (p : Nat → Bool) (n : Nat) :
    (List.range (n + 1)).countP p = (List.range n).countP p + (if p n then 1 else 0) := by
  rw [List.range_succ, List.countP_append]
  simp [List.countP_cons]

/-- The prediction for an item does not depend on the work buffers the
pipeline starts from. -/
theorem ps_forward_one_predict (st : Scratch) (images c1_w c2_w fc_w : List Int) (i : Nat)
    (hst : st.Sized) (himg : images.length = N_TEST * IMG_SIZE) (hi : i < N_TEST)
    (h1 : c1_w.length = 100) (h2 : c2_w.length = 1200) (h3 : fc_w.length = 1920) :
    ∃ k st', ps_forward_one st (image_at images i) c1_w c2_w fc_w = some (k, st') ∧
      st'.Sized ∧ k < 10 ∧ ps_predict images c1_w c2_w fc_w i = some k := by
  have hlen := image_at_length images i himg hi
  obtain ⟨k, hrun, ha, hk, _⟩ :=
    run_forward_uint8_eq st c1_w c2_w fc_w (image_at images i) hst hlen h1 h2 h3
  obtain ⟨k0, hrun0, ha0, _⟩ :=
    run_forward_uint8_eq Scratch.zero c1_w c2_w fc_w (image_at images i) Scratch.zero_sized
      hlen h1 h2 h3
  have e : k0 = k := Option.some.inj (ha0.symm.trans ha)
  refine ⟨k, _, hrun, forward_buffers_sized _ _ _ _, hk, ?_⟩
  unfold ps_predict ps_forward_one
  rw [hrun0, e]
  rfl

/-- The PS loop returns normally with the number of correctly classified
items in `correct_ps`. -/
theorem ps_loop_spec (images labels c1_w c2_w fc_w : List Int) (st : Scratch)
    (hst : st.Sized) (himg : images.length = N_TEST * IMG_SIZE)
    (hlab : labels.length = N_TEST)
    (h1 : c1_w.length = 100) (h2 : c2_w.length = 1200) (h3 : fc_w.length = 1920) :
    ∃ st', ps_loop images labels c1_w c2_w fc_w st
        = some ((List.range N_TEST).countP (ps_hit images labels c1_w c2_w fc_w), st') ∧
      st'.Sized := by
  unfold ps_loop
  obtain ⟨s', hrun, hP⟩ := forLoop_inv
    (fun i (s : Nat × Scratch) =>
      s.1 = (List.range i).countP (ps_hit images labels c1_w c2_w fc_w) ∧ s.2.Sized)
    (fun s i => do
      let x := image_at images i
      let label ← load labels i
      let r ← ps_forward_one s.2 x c1_w c2_w fc_w
      pure (if (r.1 : Int) = label then (s.1 + 1, r.2) else (s.1, r.2)))
    N_TEST (0, st) ⟨by simp, hst⟩ (by
      intro i s hi ⟨hc, hs⟩
      obtain ⟨k, st', hrun, hs', _, hpred⟩ :=
        ps_forward_one_predict s.2 images c1_w c2_w fc_w i hs himg hi h1 h2 h3
      beta_reduce
      rw [load_eq_getD labels i (by omega)]
      simp only [bind_some_eq]
      rw [hrun, bind_some_eq]
      have hhit : ps_hit images labels c1_w c2_w fc_w i
          = decide ((k : Int) = labels.getD i 0) := by
        unfold ps_hit
        rw [hpred]
        show decide (some (k : Int) = some (labels.getD i 0)) = _
        rw [decide_eq_decide]
        exact Option.some_inj
      by_cases hk : (k : Int) = labels.getD i 0
      · refine ⟨(s.1 + 1, st'), by rw [if_pos hk]; rfl, ?_, hs'⟩
        rw [countP_range_succ, hhit, ← hc, decide_eq_true hk, if_pos rfl]
      · refine ⟨(s.1, st'), by rw [if_neg hk]; rfl, ?_, hs'⟩
        rw [countP_range_succ, hhit, ← hc, decide_eq_false hk, if_neg (by decide)]
        rfl)
  refine ⟨s'.2, ?_, hP.2⟩
  rw [hrun, ← hP.1]

/-- The PL loop returns normally with the number of labels equal to 0 in
`correct_pl`, whatever the image table. -/
theorem pl_loop_spec (images labels : List Int) (hlab : labels.length = N_TEST) :
    pl_loop images labels
      = some ((List.range N_TEST).countP (fun i => decide (labels.getD i 0 = 0))) := by
  unfold pl_loop
  obtain ⟨n, hrun, hP⟩ := forLoop_inv
    (fun i (n : Nat) => n = (List.range i).countP (fun i => decide (labels.getD i 0 = 0)))
    (fun correct_pl i => do
      let _x := image_at images i
      let label ← load labels i
      let pred : Int := 0
      pure (if pred = label then correct_pl + 1 else correct_pl))
    N_TEST 0 (by simp) (by
      intro i n hi hn
      beta_reduce
      rw [load_eq_getD labels i (by omega)]
      simp only [bind_some_eq]
      by_cases h0 : labels.getD i 0 = 0
      · refine ⟨n + 1, by rw [if_pos h0.symm]; rfl, ?_⟩
        rw [countP_range_succ, ← hn]
        rw [decide_eq_true h0, if_pos rfl]
      · have h0' : ¬ (0 : Int) = labels.getD i 0 := fun h => h0 h.symm
        refine ⟨n, by rw [if_neg h0']; rfl, ?_⟩
        rw [countP_range_succ, ← hn]
        rw [decide_eq_false h0, if_neg (by decide)]
        rfl)
  rw [hrun, hP]


/-- C14: with `predict(i)` the result of `ps_forward_one` on the 784-byte
slice of the image table at `i * IMG_SIZE` and the three weight tables, the
PS loop of the harness returns normally with `correct_ps` equal to the number
of indices `i` in `[0, N_TEST)` with `predict(i) = label[i]`; so
`0 ≤ correct_ps ≤ N_TEST` and the accuracy fraction of the summary is
`correct_ps / N_TEST`. -/
theorem ps_loop_counts_correct (images labels c1_w c2_w fc_w : List Int) (st : Scratch)
    (hst : st.Sized) (himg : images.length = N_TEST * IMG_SIZE) (_himgU8 : AllU8 images)
    (hlab : labels.length = N_TEST) (_hlabU8 : AllU8 labels)
    (h1 : c1_w.length = C1_OUT * IN_C * KH * KW) (_h1I8 : AllI8 c1_w)
    (h2 : c2_w.length = C2_OUT * C1_OUT * KH * KW) (_h2I8 : AllI8 c2_w)
    (h3 : fc_w.length = FC_OUT * FC_IN) (_h3I8 : AllI8 fc_w) :
    ∃ n st', ps_loop images labels c1_w c2_w fc_w st = some (n, st') ∧
      n = (List.range N_TEST).countP (fun i =>
        decide ((ps_predict images c1_w c2_w fc_w i).map Int.ofNat
          = some (labels.getD i 0))) ∧
      (∀ i, i < N_TEST → ∃ k, ps_predict images c1_w c2_w fc_w i = some k ∧ k < 10) ∧
      0 ≤ n ∧ n ≤ N_TEST ∧ summary_ps_acc n = (n, N_TEST) := by
  obtain ⟨st', hrun, _⟩ := ps_loop_spec images labels c1_w c2_w fc_w st hst himg hlab h1 h2 h3
  refine ⟨_, st', hrun, rfl, ?_, Nat.zero_le _, ?_, rfl⟩
  · intro i hi
    obtain ⟨k, _, _, _, hk, hp⟩ :=
      ps_forward_one_predict Scratch.zero images c1_w c2_w fc_w i Scratch.zero_sized himg hi
        h1 h2 h3
    exact ⟨k, hp, hk⟩
  · have h := List.countP_le_length (ps_hit images labels c1_w c2_w fc_w)
      (l := List.range N_TEST)
    rw [List.length_range] at h
    exact h

/-- Instance of C14: a table of black images, all labelled 0. -/
theorem ps_loop_counts_correct_witness :
    ∃ n st', ps_loop (List.replicate 784000 0) (List.replicate 1000 0) (List.replicate 100 3)
        (List.replicate 1200 (-2)) (List.replicate 1920 5) Scratch.zero = some (n, st') ∧
      n = (List.range N_TEST).countP (fun i =>
        decide ((ps_predict (List.replicate 784000 0) (List.replicate 100 3)
          (List.replicate 1200 (-2)) (List.replicate 1920 5) i).map Int.ofNat
          = some ((List.replicate 1000 (0 : Int)).getD i 0))) ∧
      (∀ i, i < N_TEST → ∃ k, ps_predict (List.replicate 784000 0) (List.replicate 100 3)
          (List.replicate 1200 (-2)) (List.replicate 1920 5) i = some k ∧ k < 10) ∧
      0 ≤ n ∧ n ≤ N_TEST ∧ summary_ps_acc n = (n, N_TEST) :=
  ps_loop_counts_correct (List.replicate 784000 0) (List.replicate 1000 0)
    (List.replicate 100 3) (List.replicate 1200 (-2)) (List.replicate 1920 5) Scratch.zero
    Scratch.zero_sized
    (List.length_replicate 784000 0) (allU8_replicate 784000 0 (by decide))
    (List.length_replicate 1000 0) (allU8_replicate 1000 0 (by decide))
    (List.length_replicate 100 3) (allI8_replicate 100 3 (by decide))
    (List.length_replicate 1200 (-2)) (allI8_replicate 1200 (-2) (by decide))
    (List.length_replicate 1920 5) (allI8_replicate 1920 5 (by decide))

/-- C20: in the PL path of the harness as shipped (placeholder prediction
fixed to 0) the loop returns normally with `correct_pl` equal to the number
of indices `i` in `[0, N_TEST)` whose label is 0, for every image table; and
in a run of case '1' the PL count is that number for every image table and
every weight table. -/
theorem pl_loop_counts_label_zero (images labels c1_w c2_w fc_w : List Int) (st : Scratch)
    (hst : st.Sized) (himg : images.length = N_TEST * IMG_SIZE) (_himgU8 : AllU8 images)
    (hlab : labels.length = N_TEST) (_hlabU8 : AllU8 labels)
    (h1 : c1_w.length = C1_OUT * IN_C * KH * KW) (_h1I8 : AllI8 c1_w)
    (h2 : c2_w.length = C2_OUT * C1_OUT * KH * KW) (_h2I8 : AllI8 c2_w)
    (h3 : fc_w.length = FC_OUT * FC_IN) (_h3I8 : AllI8 fc_w) :
    (∀ images' : List Int, pl_loop images' labels
      = some ((List.range N_TEST).countP (fun i => decide (labels.getD i 0 = 0)))) ∧
    ∃ correct_ps st', run_test images labels c1_w c2_w fc_w st
      = some (correct_ps, (List.range N_TEST).countP (fun i => decide (labels.getD i 0 = 0)),
          st') := by
  refine ⟨fun images' => pl_loop_spec images' labels hlab, ?_⟩
  obtain ⟨st', hrun, _⟩ := ps_loop_spec images labels c1_w c2_w fc_w st hst himg hlab h1 h2 h3
  refine ⟨(List.range N_TEST).countP (ps_hit images labels c1_w c2_w fc_w), st', ?_⟩
  unfold run_test
  rw [hrun, bind_some_eq, pl_loop_spec images labels hlab, bind_some_eq]
  dsimp only
  rfl

/-- Instance of C20: a table of black images, all labelled 0. -/
theorem pl_loop_counts_label_zero_witness :
    (∀ images' : List Int, pl_loop images' (List.replicate 1000 0)
      = some ((List.range N_TEST).countP
          (fun i => decide ((List.replicate 1000 (0 : Int)).getD i 0 = 0)))) ∧
    ∃ correct_ps st', run_test (List.replicate 784000 0) (List.replicate 1000 0)
        (List.replicate 100 3) (List.replicate 1200 (-2)) (List.replicate 1920 5) Scratch.zero
      = some (correct_ps, (List.range N_TEST).countP
          (fun i => decide ((List.replicate 1000 (0 : Int)).getD i 0 = 0)), st') :=
  pl_loop_counts_label_zero (List.replicate 784000 0) (List.replicate 1000 0)
    (List.replicate 100 3) (List.replicate 1200 (-2)) (List.replicate 1920 5) Scratch.zero
    Scratch.zero_sized
    (List.length_replicate 784000 0) (allU8_replicate 784000 0 (by decide))
    (List.length_replicate 1000 0) (allU8_replicate 1000 0 (by decide))
    (List.length_replicate 100 3) (allI8_replicate 100 3 (by decide))
    (List.length_replicate 1200 (-2)) (allI8_replicate 1200 (-2) (by decide))
    (List.length_replicate 1920 5) (allI8_replicate 1920 5 (by decide))

end CNN
